import Mathlib

/-!
# NimBLE-DataPipe: message framing and reassembly

A shallow embedding of the framing (`sendInternal`) and reassembly (`onWrite`)
code of the two source variants of the library:

* `src/NimBLE-DataPipe.cpp`, the indicate-only variant (namespace `IndicateOnly`);
* `src/NimBLE_DataPipe.cpp`, the configurable indicate/notify variant
  (namespace `Configurable`).

Bytes (`uint8_t`) are `Fin 256`.  Buffers (`uint8_t *` with a length,
`std::vector<uint8_t>`) are lists of bytes, and the `len` argument that travels
with a pointer is the length of the list.  The payload and its framed copy are
both live objects during a send, so `len + 3` and the loop counter `i + maxPayload`
stay below the range of `size_t`; these are plain natural numbers.  The one place
where `size_t` arithmetic can wrap, the subtraction in the configurable `onWrite`,
is modelled modulo `2 ^ 32` (`size_t` on the 32-bit targets of the library).

What the code does to the outside world is recorded as data: `sendInternal`
returns the list of transmit calls and delays it performs, `onWrite` returns the
new accumulator together with the dispatch that happened on this event, if any.
-/

namespace DataPipe

/-! ## Bytes and sizes -/

/-- A `uint8_t`. -/
abbrev Byte := Fin 256

/-- Conversion of an integer value to `uint8_t`: the low eight bits. -/
def toByte (n : Nat) : Byte := ⟨n % 256, Nat.mod_lt n (by decide)⟩

/-- The constant `TYPE_JSON = 0x00` of the class. -/
def TYPE_JSON : Byte := 0

/-- Number of values of a `size_t` (32-bit targets). -/
def SIZE_RANGE : Nat := 2 ^ 32

/-- Subtraction of two `size_t` values, wrapping around like the unsigned C++ `-`. -/
def sizeSub (a b : Nat) : Nat := (a % SIZE_RANGE + SIZE_RANGE - b % SIZE_RANGE) % SIZE_RANGE

/-! ## Connection and MTU query -/

/-- What the pipe reads from the `NimBLEServer`: `getConnectedCount()` and, for each
entry of `getPeerDevices()`, the value of `getPeerMTU`. -/
structure Server where
  connectedCount : Nat
  peerMTU : List Nat
deriving DecidableEq

/-- `NimBLE_DataPipe::isConnected`: `_pServer && _pServer->getConnectedCount() > 0`
(identical in both variants). The argument is `_pServer`, `none` for `nullptr`. -/
def isConnected (pServer : Option Server) : Bool :=
  match pServer with
  | none => false
  | some srv => decide (srv.connectedCount > 0)

/-- `NimBLE_DataPipe::getMTU` (identical in both variants); the result is a `uint16_t`. -/
def getMTU (pServer : Option Server) : Nat :=
  match pServer with
  | none => 23
  | some srv =>
    if !isConnected (some srv) then 23
    else
      match srv.peerMTU with
      | [] => 23
      | m :: _ => m % 65536

/-! ## Transmit side -/

/-- One observable action of `sendInternal`: a frame handed to `indicate`, a frame
handed to `notify` (after `setValue`), or a call of `delay`. -/
inductive TxEvent where
  | indicate (value : List Byte)
  | notify (value : List Byte)
  | delay (ms : Nat)
deriving DecidableEq

/-- The frame carried by a transmit call; a delay carries none. -/
def TxEvent.frame? : TxEvent → Option (List Byte)
  | TxEvent.indicate v => some v
  | TxEvent.notify v => some v
  | TxEvent.delay _ => none

/-- The frames transmitted by a run, in transmission order. -/
def transmitted (trace : List TxEvent) : List (List Byte) :=
  trace.filterMap TxEvent.frame?

/-- The delays of a run, in order. -/
def delays (trace : List TxEvent) : List Nat :=
  trace.filterMap (fun e => match e with | TxEvent.delay ms => some ms | _ => none)

/-- The link as the transmit loop of the indicate-only variant observes it:
`connected k` is the value of `isConnected()` read at the top of loop iteration `k`,
`indicateOk k` is the value returned by the `indicate` call of iteration `k`. -/
structure Link where
  connected : Nat → Bool
  indicateOk : Nat → Bool

/-- A link on which the peer stays connected and every indicate succeeds. -/
def Link.steady : Link := ⟨fun _ => true, fun _ => true⟩

/-- The framed message built by `sendInternal` in `buffer` (both variants):
`buffer[0] = type`, `buffer[1] = len & 0xFF`, `buffer[2] = (len >> 8) & 0xFF`,
then `memcpy(buffer + 3, payload, len)`. -/
def frameBuffer (type : Byte) (payload : List Byte) : List Byte :=
  type :: toByte (payload.length &&& 0xFF) :: toByte ((payload.length >>> 8) &&& 0xFF) :: payload

namespace IndicateOnly

/-- The chunking loop of `sendInternal` in `NimBLE-DataPipe.cpp`:
`for (i = 0; i < totalLen; i += maxPayload)`, entered at offset `i` as iteration `k`.
The first argument bounds the number of iterations. -/
def sendLoop (link : Link) (buffer : List Byte) (maxPayload totalLen : Nat) :
    Nat → Nat → Nat → List TxEvent
  | 0, _, _ => []
  | fuel + 1, i, k =>
    if i < totalLen then
      let chunkSize := min maxPayload (totalLen - i)
      if !link.connected k then []
      else
        let ev := TxEvent.indicate ((buffer.drop i).take chunkSize)
        if !link.indicateOk k then [ev]
        else ev :: sendLoop link buffer maxPayload totalLen fuel (i + maxPayload) (k + 1)
    else []

/-- `NimBLE_DataPipe::sendInternal` of `NimBLE-DataPipe.cpp`. `pChar` tells whether
`_pChar` is set. The loop runs at most `totalLen` times, as `maxPayload ≥ 1`. -/
def sendInternal (pChar : Bool) (pServer : Option Server) (link : Link)
    (type : Byte) (payload : List Byte) : List TxEvent :=
  if !pChar || !isConnected pServer then []
  else
    let rawMTU := getMTU pServer
    if rawMTU < 5 then []
    else
      let maxPayload := rawMTU - 4
      let totalLen := payload.length + 3
      let buffer := frameBuffer type payload
      if totalLen ≤ maxPayload then [TxEvent.indicate (buffer.take totalLen)]
      else sendLoop link buffer maxPayload totalLen totalLen 0 0

end IndicateOnly

namespace Configurable

/-- The chunking loop of `sendInternal` in `NimBLE_DataPipe.cpp`:
`for (i = 0; i < totalLen; i += mtu)`, entered at offset `i`.
The first argument bounds the number of iterations. -/
def sendLoop (useIndication : Bool) (buffer : List Byte) (mtu totalLen : Nat) :
    Nat → Nat → List TxEvent
  | 0, _ => []
  | fuel + 1, i =>
    if i < totalLen then
      let chunkSize := min mtu (totalLen - i)
      let value := (buffer.drop i).take chunkSize
      let evs :=
        if useIndication then [TxEvent.indicate value]
        else
          TxEvent.notify value ::
            (if totalLen > mtu then
              let chunkCount := (totalLen + mtu - 1) / mtu
              let throttleMs := if chunkCount > 10 then 10 else 5
              [TxEvent.delay throttleMs]
            else [])
      evs ++ sendLoop useIndication buffer mtu totalLen fuel (i + mtu)
    else []

/-- `NimBLE_DataPipe::sendInternal` of `NimBLE_DataPipe.cpp`. `pChar` tells whether
`_pChar` is set. The loop runs at most `totalLen` times, as `mtu ≥ 1`. -/
def sendInternal (pChar : Bool) (pServer : Option Server) (useIndication : Bool)
    (type : Byte) (payload : List Byte) : List TxEvent :=
  if !pChar || !isConnected pServer then []
  else
    let rawMTU := getMTU pServer
    if rawMTU < 5 then []
    else
      let mtu := rawMTU - 4
      let totalLen := payload.length + 3
      let buffer := frameBuffer type payload
      sendLoop useIndication buffer mtu totalLen totalLen 0

end Configurable

/-! ## Receive side -/

/-- The receive accumulator fields of `NimBLE_DataPipe`, with their initial values. -/
structure RxState where
  rxBuffer : List Byte := []
  expectedType : Byte := 0
  expectedLen : Nat := 0
  headerReceived : Bool := false
deriving DecidableEq

/-- The accumulator of a freshly constructed pipe. -/
def RxState.initial : RxState := {}

/-- Which of `_binaryHandler` and `_jsonHandler` are set (not `nullptr`). -/
structure Handlers where
  binaryHandler : Bool
  jsonHandler : Bool
deriving DecidableEq

/-- What the dispatch step of `onWrite` did with a completed message. -/
inductive Dispatch (Doc : Type) where
  | jsonHandler (doc : Doc)
  | jsonError
  | binaryHandler (type : Byte) (data : List Byte) (len : Nat)
  | dropped
deriving DecidableEq

/-- A message completed by an `onWrite` event: the type and buffer contents at the
completion check, and what the dispatch step did with them. -/
structure Completed (Doc : Type) where
  type : Byte
  payload : List Byte
  dispatch : Dispatch Doc
deriving DecidableEq

section Receive

variable {Doc : Type} (deserializeJson : List Byte → Option Doc) (h : Handlers)

/-- The dispatch branch inside the completion check of `onWrite` (same text in both
variants). `deserializeJson` is the JSON codec, `none` standing for a decode error. -/
def dispatch (expectedType : Byte) (rxBuffer : List Byte) : Dispatch Doc :=
  if expectedType == TYPE_JSON && h.jsonHandler then
    match deserializeJson rxBuffer with
    | some doc => Dispatch.jsonHandler doc
    | none => Dispatch.jsonError
  else if h.binaryHandler then Dispatch.binaryHandler expectedType rxBuffer rxBuffer.length
  else Dispatch.dropped

/-- The completion check that ends `onWrite` (same text in both variants):
`if (_rxBuffer.size() >= _expectedLen && _headerReceived)`, dispatch, then
`_headerReceived = false; _rxBuffer.clear()`. -/
def checkComplete (s : RxState) : RxState × Option (Completed Doc) :=
  if decide (s.rxBuffer.length ≥ s.expectedLen) && s.headerReceived then
    ({ s with headerReceived := false, rxBuffer := [] },
      some ⟨s.expectedType, s.rxBuffer, dispatch deserializeJson h s.expectedType s.rxBuffer⟩)
  else (s, none)

namespace IndicateOnly

/-- `NimBLE_DataPipe::onWrite` of `NimBLE-DataPipe.cpp`; `data` is the written value. -/
def onWrite (s : RxState) (data : List Byte) : RxState × Option (Completed Doc) :=
  if data.length = 0 then (s, none)
  else if !s.headerReceived then
    let buf := s.rxBuffer ++ data
    if buf.length ≥ 3 then
      checkComplete deserializeJson h
        { rxBuffer := buf.drop 3
          expectedType := buf.getD 0 0
          expectedLen := (buf.getD 1 0).val ||| ((buf.getD 2 0).val <<< 8)
          headerReceived := true }
    else ({ s with rxBuffer := buf }, none)
  else
    checkComplete deserializeJson h { s with rxBuffer := s.rxBuffer ++ data }

end IndicateOnly

namespace Configurable

/-- `NimBLE_DataPipe::onWrite` of `NimBLE_DataPipe.cpp`; `data` is the written value. -/
def onWrite (s : RxState) (data : List Byte) : RxState × Option (Completed Doc) :=
  let len := data.length
  if len = 0 then (s, none)
  else
    let header : Option (RxState × Nat) :=
      if !s.headerReceived then
        if len ≥ 3 then
          some ({ rxBuffer := []
                  expectedType := data.getD 0 0
                  expectedLen := (data.getD 1 0).val ||| ((data.getD 2 0).val <<< 8)
                  headerReceived := true }, 3)
        else none
      else some (s, 0)
    match header with
    | none => (s, none)
    | some (s1, offset) =>
      let remainingToRead := sizeSub s1.expectedLen s1.rxBuffer.length
      let canRead := min (len - offset) remainingToRead
      let s2 :=
        if canRead > 0 then
          { s1 with rxBuffer := s1.rxBuffer ++ (data.drop offset).take canRead }
        else s1
      checkComplete deserializeJson h s2

end Configurable

/-- Delivers the chunks to `onWrite`, one event per chunk, and collects what each event
completed. -/
def feed (step : RxState → List Byte → RxState × Option (Completed Doc)) :
    RxState → List (List Byte) → RxState × List (Option (Completed Doc))
  | s, [] => (s, [])
  | s, c :: cs =>
    let r := step s c
    let rest := feed step r.1 cs
    (rest.1, r.2 :: rest.2)

end Receive

/-! ## Connection events -/

/-- The pipe together with what `DataPipeServerCallbacks` acts on: the advertising
state of the device. -/
structure Device where
  rx : RxState
  advertising : Bool
deriving DecidableEq

/-- `DataPipeServerCallbacks::onConnect` (both variants): logs. -/
def onConnect (d : Device) : Device := d

/-- `DataPipeServerCallbacks::onDisconnect` (both variants): logs and calls
`NimBLEDevice::startAdvertising()`. -/
def onDisconnect (d : Device) : Device := { d with advertising := true }

/-! ## The frame sequence of an un-aborted send -/

/-- The successive slices `buffer[i .. i + min m (total - i))` for `i = start, start + m, …`
below `total`: what the chunking loops hand to the transmit primitive when nothing aborts. -/
def slices (buffer : List Byte) (m total : Nat) : Nat → Nat → List (List Byte)
  | 0, _ => []
  | fuel + 1, i =>
    if i < total then (buffer.drop i).take (min m (total - i)) :: slices buffer m total fuel (i + m)
    else []

/-! ## The configurable `onWrite` at its subtraction -/

/-- Step 1 ("Handle Header") of `onWrite` in `NimBLE_DataPipe.cpp` on a non-empty chunk:
the accumulator and the `offset` with which step 2 computes
`remainingToRead = _expectedLen - _rxBuffer.size()`, or `none` when `onWrite` returns from
step 1 (fragmented header). -/
def Configurable.headerStep (s : RxState) (data : List Byte) : Option (RxState × Nat) :=
  if !s.headerReceived then
    if data.length ≥ 3 then
      some ({ rxBuffer := []
              expectedType := data.getD 0 0
              expectedLen := (data.getD 1 0).val ||| ((data.getD 2 0).val <<< 8)
              headerReceived := true }, 3)
    else none
  else some (s, 0)

/-! ## Well-formed input of the reassemblers -/

/-- A message on the wire together with the way it is cut into write events: the header
fields, the payload, the first chunk and the chunks after it. -/
structure FramedMessage where
  type : Byte
  lenLo : Byte
  lenHi : Byte
  payload : List Byte
  first : List Byte
  rest : List (List Byte)
deriving DecidableEq

/-- The bytes of the message: `[type, lenLo, lenHi] ++ payload`. -/
def FramedMessage.bytes (m : FramedMessage) : List Byte :=
  m.type :: m.lenLo :: m.lenHi :: m.payload

/-- The chunks of the message, in order. -/
def FramedMessage.chunks (m : FramedMessage) : List (List Byte) :=
  m.first :: m.rest

/-- The header declares the payload length, the chunks are non-empty and cover exactly the
message, and the first chunk holds the 3 header bytes. -/
def FramedMessage.wellFormed (m : FramedMessage) : Bool :=
  decide (m.payload.length = m.lenLo.val + 256 * m.lenHi.val)
    && decide (3 ≤ m.first.length)
    && m.rest.all (fun c => !c.isEmpty)
    && decide (m.chunks.flatten = m.bytes)

/-! # Theorems -/

/-! ## Arithmetic of the header and of the frame count -/

theorem ceil_div_eq (a b : Nat) (hb : 1 ≤ b) :
    ⌈(a : ℚ) / (b : ℚ)⌉₊ = (a + b - 1) / b := by
  have hbq : (0 : ℚ) < (b : ℚ) := by exact_mod_cast hb
  have hdm := Nat.div_add_mod (a + b - 1) b
  have hr := Nat.mod_lt (a + b - 1) hb
  generalize (a + b - 1) / b = q at hdm
  generalize (a + b - 1) % b = r at hdm hr
  apply le_antisymm
  · rw [Nat.ceil_le, div_le_iff₀ hbq]
    have h1 : a ≤ q * b := by rw [Nat.mul_comm]; omega
    exact_mod_cast h1
  · cases q with
    | zero => omega
    | succ q' =>
      have h2 : q' < ⌈(a : ℚ) / (b : ℚ)⌉₊ := by
        rw [Nat.lt_ceil, lt_div_iff₀ hbq]
        have h3 : q' * b < a := by
          rw [Nat.mul_add, Nat.mul_one] at hdm
          rw [Nat.mul_comm]; omega
        exact_mod_cast h3
      omega

theorem and_0xFF (n : Nat) : n &&& 0xFF = n % 256 :=
  Nat.and_pow_two_sub_one_eq_mod n 8

theorem header_lo (len : Nat) : (toByte (len &&& 0xFF)).val = len % 256 := by
  simp only [toByte, and_0xFF]; omega

theorem header_hi (len : Nat) : (toByte ((len >>> 8) &&& 0xFF)).val = len / 256 % 256 := by
  simp only [toByte, and_0xFF, Nat.shiftRight_eq_div_pow]; omega

theorem lor_shl8 (lo hi : Byte) : lo.val ||| (hi.val <<< 8) = lo.val + 256 * hi.val := by
  have h := Nat.mul_add_lt_is_or (i := 8) (b := lo.val) lo.isLt hi.val
  rw [Nat.shiftLeft_eq, Nat.lor_comm, Nat.mul_comm hi.val, ← h]
  omega

/-! ## The chunking loops -/

theorem slices_flatten (buffer : List Byte) (m total : Nat) (hm : 1 ≤ m)
    (hlen : buffer.length = total) :
    ∀ fuel i, total - i ≤ fuel → (slices buffer m total fuel i).flatten = buffer.drop i := by
  intro fuel
  induction fuel with
  | zero =>
    intro i hi
    have : buffer.length ≤ i := by omega
    simp [slices, List.drop_eq_nil_of_le this]
  | succ fuel ih =>
    intro i hi
    unfold slices
    split
    · rename_i hlt
      rw [List.flatten_cons, ih (i + m) (by omega), ← List.drop_drop]
      by_cases hc : m ≤ total - i
      · rw [Nat.min_eq_left hc, List.take_append_drop]
      · have hd : (buffer.drop i).length = total - i := by simp [hlen]
        have ht : (buffer.drop i).take (total - i) = buffer.drop i :=
          List.take_of_length_le (by omega)
        have hn : (buffer.drop i).drop m = [] := List.drop_eq_nil_of_le (by omega)
        rw [Nat.min_eq_right (by omega), ht, hn, List.append_nil]
    · have : buffer.length ≤ i := by omega
      simp [List.drop_eq_nil_of_le this]

theorem slices_length (buffer : List Byte) (m total : Nat) (hm : 1 ≤ m) :
    ∀ fuel i, total - i ≤ fuel →
      (slices buffer m total fuel i).length = (total - i + m - 1) / m := by
  intro fuel
  induction fuel with
  | zero =>
    intro i hi
    have h0 : total - i + m - 1 < m := by omega
    simp [slices, Nat.div_eq_of_lt h0]
  | succ fuel ih =>
    intro i hi
    unfold slices
    split
    · rename_i hlt
      rw [List.length_cons, ih (i + m) (by omega)]
      by_cases hc : m ≤ total - i
      · have e : total - i + m - 1 = (total - (i + m) + m - 1) + m := by omega
        rw [e, Nat.add_div_right _ (by omega)]
      · have e1 : total - (i + m) + m - 1 < m := by omega
        have e2 : total - i + m - 1 = (total - i - 1) + m := by omega
        have e3 : total - i - 1 < m := by omega
        rw [Nat.div_eq_of_lt e1, e2, Nat.add_div_right _ (by omega), Nat.div_eq_of_lt e3]
    · have h0 : total - i + m - 1 < m := by omega
      simp [Nat.div_eq_of_lt h0]

theorem slices_bounds (buffer : List Byte) (m total : Nat) (hm : 1 ≤ m)
    (hlen : buffer.length = total) :
    ∀ fuel i, ∀ f ∈ slices buffer m total fuel i, 1 ≤ f.length ∧ f.length ≤ m := by
  intro fuel
  induction fuel with
  | zero => intro i f hf; simp [slices] at hf
  | succ fuel ih =>
    intro i f hf
    unfold slices at hf
    split at hf
    · rename_i hlt
      rcases List.mem_cons.1 hf with rfl | hf
      · simp only [List.length_take, List.length_drop, hlen]; omega
      · exact ih _ _ hf
    · simp at hf

theorem slices_full (buffer : List Byte) (m total : Nat)
    (hlen : buffer.length = total) :
    ∀ fuel i, ∀ f ∈ (slices buffer m total fuel i).dropLast, f.length = m := by
  intro fuel
  induction fuel with
  | zero => intro i f hf; simp [slices] at hf
  | succ fuel ih =>
    intro i f hf
    unfold slices at hf
    split at hf
    · rename_i hlt
      cases fuel with
      | zero => simp [slices] at hf
      | succ fuel =>
        unfold slices at hf ih
        by_cases hc : i + m < total
        · rw [if_pos hc, List.dropLast_cons₂] at hf
          rcases List.mem_cons.1 hf with rfl | hf
          · simp only [List.length_take, List.length_drop, hlen]; omega
          · have := ih (i + m) f
            rw [if_pos hc] at this
            exact this hf
        · rw [if_neg hc] at hf
          simp at hf
    · simp at hf

theorem slices_ne_nil (buffer : List Byte) (m total fuel i : Nat) (hi : i < total)
    (hf : 1 ≤ fuel) : slices buffer m total fuel i ≠ [] := by
  cases fuel with
  | zero => omega
  | succ fuel => unfold slices; simp [hi]

theorem indicate_sendLoop_steady (link : Link) (buffer : List Byte) (m total : Nat)
    (hc : ∀ k, link.connected k = true) (ha : ∀ k, link.indicateOk k = true) :
    ∀ fuel i k, transmitted (IndicateOnly.sendLoop link buffer m total fuel i k)
      = slices buffer m total fuel i := by
  intro fuel
  induction fuel with
  | zero => intro i k; simp [IndicateOnly.sendLoop, slices, transmitted]
  | succ fuel ih =>
    intro i k
    unfold IndicateOnly.sendLoop slices
    by_cases h : i < total
    · have := ih (i + m) (k + 1)
      simp only [transmitted] at this
      simp [h, hc k, ha k, transmitted, TxEvent.frame?, this]
    · simp [h, transmitted]

theorem configurable_sendLoop_frames (useIndication : Bool) (buffer : List Byte) (m total : Nat) :
    ∀ fuel i, transmitted (Configurable.sendLoop useIndication buffer m total fuel i)
      = slices buffer m total fuel i := by
  intro fuel
  induction fuel with
  | zero => intro i; simp [Configurable.sendLoop, slices, transmitted]
  | succ fuel ih =>
    intro i
    unfold Configurable.sendLoop slices
    by_cases h : i < total
    · have := ih (i + m)
      simp only [transmitted] at this
      cases useIndication <;> by_cases h2 : total > m <;>
        simp [h, h2, transmitted, TxEvent.frame?, this, List.filterMap_append]
    · simp [h, transmitted]

theorem slices_single (buffer : List Byte) (m total fuel i : Nat) (hi : i < total)
    (hm : total ≤ i + m) (hf : 1 ≤ fuel) :
    slices buffer m total fuel i = [(buffer.drop i).take (total - i)] := by
  cases fuel with
  | zero => omega
  | succ fuel =>
    unfold slices
    rw [if_pos hi, Nat.min_eq_right (by omega)]
    cases fuel with
    | zero => simp [slices]
    | succ fuel =>
      unfold slices
      rw [if_neg (by omega)]

theorem indicate_transmitted (pServer : Option Server) (link : Link) (t : Byte)
    (p : List Byte) (hconn : isConnected pServer = true) (hU : 5 ≤ getMTU pServer)
    (hc : ∀ k, link.connected k = true) (ha : ∀ k, link.indicateOk k = true) :
    transmitted (IndicateOnly.sendInternal true pServer link t p)
      = slices (frameBuffer t p) (getMTU pServer - 4) (p.length + 3) (p.length + 3) 0 := by
  unfold IndicateOnly.sendInternal
  have hn : ¬ getMTU pServer < 5 := by omega
  simp only [hconn, Bool.not_true, Bool.or_self, Bool.false_eq_true, if_false, hn]
  split
  · rename_i hle
    rw [slices_single _ _ _ _ _ (by omega) (by omega) (by omega)]
    simp [transmitted, TxEvent.frame?]
  · exact indicate_sendLoop_steady link _ _ _ hc ha _ _ _

theorem configurable_transmitted (pServer : Option Server) (useIndication : Bool) (t : Byte)
    (p : List Byte) (hconn : isConnected pServer = true) (hU : 5 ≤ getMTU pServer) :
    transmitted (Configurable.sendInternal true pServer useIndication t p)
      = slices (frameBuffer t p) (getMTU pServer - 4) (p.length + 3) (p.length + 3) 0 := by
  unfold Configurable.sendInternal
  have hn : ¬ getMTU pServer < 5 := by omega
  simp only [hconn, Bool.not_true, Bool.or_self, Bool.false_eq_true, if_false, hn]
  exact configurable_sendLoop_frames _ _ _ _ _ _

/-! ## The indicate-only reassembler on a well-formed message -/

theorem prefix3 {α : Type} (buf rest p : List α) (a b c : α)
    (h : buf ++ rest = a :: b :: c :: p) (hl : 3 ≤ buf.length) :
    ∃ q, buf = a :: b :: c :: q ∧ q ++ rest = p := by
  rcases buf with _ | ⟨x, _ | ⟨y, _ | ⟨z, q⟩⟩⟩
  · simp at hl
  · simp at hl
  · simp at hl
  · simp only [List.cons_append, List.cons.injEq] at h
    obtain ⟨rfl, rfl, rfl, h⟩ := h
    exact ⟨q, rfl, h⟩

theorem flatten_pos (cs : List (List Byte)) (hne : cs ≠ []) (hc : ∀ c ∈ cs, c ≠ []) :
    1 ≤ cs.flatten.length := by
  rcases cs with _ | ⟨c, cs⟩
  · exact absurd rfl hne
  · have := hc c (List.mem_cons_self _ _)
    have : 1 ≤ c.length := by
      rcases c with _ | ⟨x, c⟩
      · exact absurd rfl this
      · simp
    simp only [List.flatten_cons, List.length_append]
    omega

section Receive

variable {Doc : Type} (deserializeJson : List Byte → Option Doc) (h : Handlers)

theorem feed_length (step : RxState → List Byte → RxState × Option (Completed Doc)) :
    ∀ (chunks : List (List Byte)) (s : RxState), (feed step s chunks).2.length = chunks.length := by
  intro chunks
  induction chunks with
  | nil => intro s; rfl
  | cons c cs ih => intro s; simp [feed, ih]

/-- Payload phase of the indicate-only reassembler: chunks that bring exactly the bytes
still owed complete the message on the last chunk. -/
theorem indicate_feed_payload (t : Byte) (L : Nat) :
    ∀ (chunks : List (List Byte)) (pre : List Byte), chunks ≠ [] → (∀ c ∈ chunks, c ≠ []) →
      pre.length + chunks.flatten.length = L →
      feed (IndicateOnly.onWrite deserializeJson h)
          { rxBuffer := pre, expectedType := t, expectedLen := L, headerReceived := true } chunks
        = ({ rxBuffer := [], expectedType := t, expectedLen := L, headerReceived := false },
            List.replicate (chunks.length - 1) none ++
              [some ⟨t, pre ++ chunks.flatten,
                dispatch deserializeJson h t (pre ++ chunks.flatten)⟩]) := by
  intro chunks
  induction chunks with
  | nil => intro pre hne; exact absurd rfl hne
  | cons c cs ih =>
    intro pre _ hc hL
    have hcne : c ≠ [] := hc c (List.mem_cons_self _ _)
    have hclen : c.length ≠ 0 := by
      intro h0; exact hcne (List.length_eq_zero.1 h0)
    have hcs : ∀ x ∈ cs, x ≠ [] := fun x hx => hc x (List.mem_cons_of_mem _ hx)
    simp only [List.flatten_cons, List.length_append] at hL
    by_cases hnil : cs = []
    · subst hnil
      simp only [List.flatten_nil, List.length_nil, Nat.add_zero] at hL
      have hge : L ≤ pre.length + c.length := by omega
      simp [feed, IndicateOnly.onWrite, checkComplete, hclen, hge]
    · have hpos := flatten_pos cs hnil hcs
      have hlt : pre.length + c.length < L := by omega
      have hstep : IndicateOnly.onWrite deserializeJson h
          { rxBuffer := pre, expectedType := t, expectedLen := L, headerReceived := true } c
          = ({ rxBuffer := pre ++ c, expectedType := t, expectedLen := L,
               headerReceived := true }, none) := by
        simp [IndicateOnly.onWrite, checkComplete, hclen, hlt]
      have hrec := ih (pre ++ c) hnil hcs (by simp only [List.length_append]; omega)
      obtain ⟨n, hn⟩ : ∃ n, cs.length = n + 1 := by
        rcases cs with _ | ⟨x, cs⟩
        · exact absurd rfl hnil
        · exact ⟨cs.length, rfl⟩
      simp only [feed, hstep, hrec, List.flatten_cons, List.append_assoc, List.length_cons, hn,
        Nat.add_sub_cancel, List.replicate_succ, List.cons_append]

/-- Header phase of the indicate-only reassembler: from a partially buffered header, chunks
that bring exactly the rest of the message complete it on the last chunk. -/
theorem indicate_feed_header (t lo hi : Byte) (p : List Byte)
    (hp : p.length = lo.val + 256 * hi.val) :
    ∀ (chunks : List (List Byte)) (pre : List Byte) (et : Byte) (el : Nat), chunks ≠ [] →
      (∀ c ∈ chunks, c ≠ []) → pre.length < 3 → pre ++ chunks.flatten = t :: lo :: hi :: p →
      feed (IndicateOnly.onWrite deserializeJson h)
          { rxBuffer := pre, expectedType := et, expectedLen := el, headerReceived := false } chunks
        = ({ rxBuffer := [], expectedType := t, expectedLen := p.length, headerReceived := false },
            List.replicate (chunks.length - 1) none ++
              [some ⟨t, p, dispatch deserializeJson h t p⟩]) := by
  intro chunks
  induction chunks with
  | nil => intro pre et el hne; exact absurd rfl hne
  | cons c cs ih =>
    intro pre et el _ hc hpre hm
    have hcne : c ≠ [] := hc c (List.mem_cons_self _ _)
    have hclen : c.length ≠ 0 := by
      intro h0; exact hcne (List.length_eq_zero.1 h0)
    have hcs : ∀ x ∈ cs, x ≠ [] := fun x hx => hc x (List.mem_cons_of_mem _ hx)
    rw [List.flatten_cons, ← List.append_assoc] at hm
    have htot := congrArg List.length hm
    simp only [List.length_append, List.length_cons] at htot
    by_cases h3 : 3 ≤ (pre ++ c).length
    · obtain ⟨q, hq, hrest⟩ := prefix3 (pre ++ c) cs.flatten p t lo hi hm h3
      have hlen : lo.val ||| (hi.val <<< 8) = p.length := by rw [lor_shl8, hp]
      by_cases hnil : cs = []
      · subst hnil
        simp only [List.flatten_nil, List.append_nil] at hrest
        subst hrest
        simp [feed, IndicateOnly.onWrite, checkComplete, hclen, hq, hlen]
      · have hpos := flatten_pos cs hnil hcs
        have hql : q.length + cs.flatten.length = p.length := by
          rw [← hrest, List.length_append]
        have hlt : q.length < p.length := by omega
        have hstep : IndicateOnly.onWrite deserializeJson h
            { rxBuffer := pre, expectedType := et, expectedLen := el, headerReceived := false } c
            = ({ rxBuffer := q, expectedType := t, expectedLen := p.length,
                 headerReceived := true }, none) := by
          simp [IndicateOnly.onWrite, checkComplete, hclen, hq, hlen, hlt]
        have hrec := indicate_feed_payload deserializeJson h t p.length cs q hnil hcs hql
        obtain ⟨n, hn⟩ : ∃ n, cs.length = n + 1 := by
          rcases cs with _ | ⟨x, cs⟩
          · exact absurd rfl hnil
          · exact ⟨cs.length, rfl⟩
        simp only [feed, hstep, hrec, hrest, List.length_cons, hn,
          Nat.add_sub_cancel, List.replicate_succ, List.cons_append]
    · have hnil : cs ≠ [] := by
        intro h0; subst h0
        simp only [List.flatten_nil, List.length_nil] at htot
        simp only [List.length_append] at h3
        omega
      have hstep : IndicateOnly.onWrite deserializeJson h
          { rxBuffer := pre, expectedType := et, expectedLen := el, headerReceived := false } c
          = ({ rxBuffer := pre ++ c, expectedType := et, expectedLen := el,
               headerReceived := false }, none) := by
        have h3' : ¬ 3 ≤ pre.length + c.length := by
          simpa only [List.length_append] using h3
        simp [IndicateOnly.onWrite, hclen, h3']
      have hrec := ih (pre ++ c) et el hnil hcs (by omega) hm
      obtain ⟨n, hn⟩ : ∃ n, cs.length = n + 1 := by
        rcases cs with _ | ⟨x, cs⟩
        · exact absurd rfl hnil
        · exact ⟨cs.length, rfl⟩
      simp only [feed, hstep, hrec, List.length_cons, hn,
        Nat.add_sub_cancel, List.replicate_succ, List.cons_append]

end Receive

/-! ## The framed message and its frames -/

theorem flatten_map_singleton (m : List Byte) : (m.map fun b => [b]).flatten = m := by
  induction m with
  | nil => rfl
  | cons b m ih => simp [ih]

theorem frameBuffer_length (t : Byte) (p : List Byte) :
    (frameBuffer t p).length = p.length + 3 := by
  simp [frameBuffer]

theorem frameBuffer_declared (p : List Byte) (hlen : p.length ≤ 65535) :
    p.length = (toByte (p.length &&& 0xFF)).val
      + 256 * (toByte ((p.length >>> 8) &&& 0xFF)).val := by
  rw [header_lo, header_hi]; omega

theorem frameBuffer_vals (t : Byte) (p : List Byte) (hlen : p.length ≤ 65535) :
    (frameBuffer t p).map Fin.val
      = t.val :: (p.length % 256) :: (p.length / 256) :: p.map Fin.val := by
  have h2 : p.length / 256 % 256 = p.length / 256 := by omega
  show t.val :: (toByte (p.length &&& 0xFF)).val
      :: (toByte ((p.length >>> 8) &&& 0xFF)).val :: p.map Fin.val = _
  rw [header_lo, header_hi, h2]

/-- The frames of an un-aborted send, for a unit size of at least 5: they concatenate to
the framed message, are non-empty and at most `m` bytes long, all but the last exactly `m`. -/
theorem slices_message (t : Byte) (p : List Byte) (m : Nat) (hm : 1 ≤ m) :
    (slices (frameBuffer t p) m (p.length + 3) (p.length + 3) 0).flatten = frameBuffer t p
    ∧ (∀ f ∈ slices (frameBuffer t p) m (p.length + 3) (p.length + 3) 0,
        1 ≤ f.length ∧ f.length ≤ m)
    ∧ (∀ f ∈ (slices (frameBuffer t p) m (p.length + 3) (p.length + 3) 0).dropLast,
        f.length = m)
    ∧ slices (frameBuffer t p) m (p.length + 3) (p.length + 3) 0 ≠ []
    ∧ (slices (frameBuffer t p) m (p.length + 3) (p.length + 3) 0).length
        = (p.length + 3 + m - 1) / m := by
  have hl := frameBuffer_length t p
  refine ⟨?_, ?_, ?_, ?_, ?_⟩
  · have := slices_flatten _ m _ hm hl (p.length + 3) 0 (by omega)
    simpa using this
  · exact slices_bounds _ m _ hm hl _ _
  · exact slices_full _ m _ hl _ _
  · exact slices_ne_nil _ _ _ _ _ (by omega) (by omega)
  · have := slices_length (frameBuffer t p) m (p.length + 3) hm (p.length + 3) 0 (by omega)
    simpa using this

theorem last_nonempty (fs : List (List Byte)) (hne : fs ≠ [])
    (hb : ∀ f ∈ fs, 1 ≤ f.length ∧ f.length ≤ m) :
    ∃ l, fs.getLast? = some l ∧ l ≠ [] := by
  refine ⟨fs.getLast hne, List.getLast?_eq_getLast _ hne, ?_⟩
  intro h0
  have := (hb _ (List.getLast_mem hne)).1
  rw [h0] at this
  simp at this

/-! ## The claims -/

/-- C1. Round trip, indicate-only variant: for every type `t`, payload `p` of at most 65535
bytes and unit size `U ≥ 5`, on a link where the peer stays connected and every indicate
succeeds, the frames emitted by `sendInternal t p`, fed in order and one per `onWrite` event
to a reassembler in its initial state, complete nothing before the last frame and exactly
one message on the last frame, whose type is `t` and whose payload is `p`. -/
theorem round_trip_indicate_only {Doc : Type} (deserializeJson : List Byte → Option Doc)
    (h : Handlers) (pServer : Option Server) (link : Link) (t : Byte) (p : List Byte) (U : Nat)
    (hconn : isConnected pServer = true) (hmtu : getMTU pServer = U) (hU : 5 ≤ U)
    (hlen : p.length ≤ 65535)
    (hc : ∀ k, link.connected k = true) (ha : ∀ k, link.indicateOk k = true) :
    ∃ msg : Completed Doc,
      (feed (IndicateOnly.onWrite deserializeJson h) RxState.initial
          (transmitted (IndicateOnly.sendInternal true pServer link t p))).2
        = List.replicate
            ((transmitted (IndicateOnly.sendInternal true pServer link t p)).length - 1) none
          ++ [some msg]
      ∧ msg.type = t ∧ msg.payload = p
      ∧ msg.dispatch = dispatch deserializeJson h t p := by
  subst hmtu
  rw [indicate_transmitted pServer link t p hconn hU hc ha]
  obtain ⟨hfl, hb, _, hne, _⟩ := slices_message t p (getMTU pServer - 4) (by omega)
  refine ⟨⟨t, p, dispatch deserializeJson h t p⟩, ?_, rfl, rfl, rfl⟩
  have hnon : ∀ c ∈ slices (frameBuffer t p) (getMTU pServer - 4) (p.length + 3)
      (p.length + 3) 0, c ≠ [] := by
    intro c hcm h0
    have := (hb c hcm).1
    rw [h0] at this
    simp at this
  have := indicate_feed_header deserializeJson h t _ _ p (frameBuffer_declared p hlen)
    _ [] 0 0 hne hnon (by decide) (by rw [List.nil_append, hfl]; rfl)
  exact congrArg Prod.snd this

/-- Witness for C1: type 5, payload of 4 bytes, unit size 7 (three frames of 3, 3, 1 bytes). -/
theorem round_trip_indicate_only_witness :
    (isConnected (some ⟨1, [7]⟩) = true ∧ getMTU (some ⟨1, [7]⟩) = 7 ∧ 5 ≤ 7
      ∧ ([10, 20, 30, 40] : List Byte).length ≤ 65535)
    ∧ ∃ msg : Completed Unit,
      (feed (IndicateOnly.onWrite (fun _ => none) ⟨true, false⟩) RxState.initial
          (transmitted (IndicateOnly.sendInternal true (some ⟨1, [7]⟩) Link.steady 5
            [10, 20, 30, 40]))).2
        = List.replicate
            ((transmitted (IndicateOnly.sendInternal true (some ⟨1, [7]⟩) Link.steady 5
              [10, 20, 30, 40])).length - 1) none
          ++ [some msg]
      ∧ msg.type = 5 ∧ msg.payload = [10, 20, 30, 40]
      ∧ msg.dispatch = dispatch (fun _ => none) ⟨true, false⟩ 5 [10, 20, 30, 40] :=
  ⟨by decide,
    round_trip_indicate_only (fun _ => none) ⟨true, false⟩ (some ⟨1, [7]⟩) Link.steady 5
      [10, 20, 30, 40] 7 (by decide) (by decide) (by decide) (by decide)
      (fun _ => rfl) (fun _ => rfl)⟩

/-- C2. Chunking correctness: for every payload length `L` and unit size `U` with
`U - 4 ≥ 4`, a send that is not aborted performs exactly `ceil((L+3)/(U-4))` transmit calls
and no transmitted frame is longer than `U - 4` bytes, in the indicate-only `sendInternal`
and in the configurable one (either delivery mode). -/
theorem chunking_correctness (pServer : Option Server) (link : Link) (useIndication : Bool)
    (t : Byte) (p : List Byte) (U : Nat)
    (hconn : isConnected pServer = true) (hmtu : getMTU pServer = U) (hU : U - 4 ≥ 4)
    (hc : ∀ k, link.connected k = true) (ha : ∀ k, link.indicateOk k = true) :
    ((transmitted (IndicateOnly.sendInternal true pServer link t p)).length
        = ⌈((p.length + 3 : ℕ) : ℚ) / ((U - 4 : ℕ) : ℚ)⌉₊
      ∧ ∀ f ∈ transmitted (IndicateOnly.sendInternal true pServer link t p),
          f.length ≤ U - 4)
    ∧ ((transmitted (Configurable.sendInternal true pServer useIndication t p)).length
        = ⌈((p.length + 3 : ℕ) : ℚ) / ((U - 4 : ℕ) : ℚ)⌉₊
      ∧ ∀ f ∈ transmitted (Configurable.sendInternal true pServer useIndication t p),
          f.length ≤ U - 4) := by
  subst hmtu
  have h5 : 5 ≤ getMTU pServer := by omega
  rw [indicate_transmitted pServer link t p hconn h5 hc ha,
    configurable_transmitted pServer useIndication t p hconn h5,
    ceil_div_eq _ _ (by omega)]
  obtain ⟨_, hb, _, _, hn⟩ := slices_message t p (getMTU pServer - 4) (by omega)
  exact ⟨⟨hn, fun f hf => (hb f hf).2⟩, ⟨hn, fun f hf => (hb f hf).2⟩⟩

/-- Witness for C2: type `0x05`, 500 payload bytes, unit size 23 give 27 frames, in both
variants. -/
theorem chunking_correctness_witness :
    (isConnected (some ⟨1, [23]⟩) = true ∧ getMTU (some ⟨1, [23]⟩) = 23 ∧ 23 - 4 ≥ 4)
    ∧ (transmitted (IndicateOnly.sendInternal true (some ⟨1, [23]⟩) Link.steady 5
        (List.replicate 500 0))).length = 27
    ∧ (transmitted (Configurable.sendInternal true (some ⟨1, [23]⟩) false 5
        (List.replicate 500 0))).length = 27
    ∧ (∀ f ∈ transmitted (IndicateOnly.sendInternal true (some ⟨1, [23]⟩) Link.steady 5
        (List.replicate 500 0)), f.length ≤ 19)
    ∧ (∀ f ∈ transmitted (Configurable.sendInternal true (some ⟨1, [23]⟩) false 5
        (List.replicate 500 0)), f.length ≤ 19) := by
  have key := chunking_correctness (some ⟨1, [23]⟩) Link.steady false 5
    (List.replicate 500 0) 23 (by decide) (by decide) (by decide) (fun _ => rfl) (fun _ => rfl)
  have hceil : ⌈(((List.replicate 500 (0 : Byte)).length + 3 : ℕ) : ℚ) / ((23 - 4 : ℕ) : ℚ)⌉₊
      = 27 := by
    rw [ceil_div_eq _ _ (by decide), List.length_replicate]
  exact ⟨by decide, key.1.1.trans hceil, key.2.1.trans hceil, key.1.2, key.2.2⟩

/-- C3. Wire format: for every type `t`, payload `p` of at most 65535 bytes and unit size
`U ≥ 5`, the frames of an un-aborted send, concatenated in transmission order, are the bytes
`t, length(p) mod 256, length(p) div 256` followed by `p`; every frame but the last has
exactly `U - 4` bytes and the last frame is not empty. This holds in the indicate-only
`sendInternal` and in the configurable one (either delivery mode). -/
theorem wire_format (pServer : Option Server) (link : Link) (useIndication : Bool)
    (t : Byte) (p : List Byte) (U : Nat)
    (hconn : isConnected pServer = true) (hmtu : getMTU pServer = U) (hU : 5 ≤ U)
    (hlen : p.length ≤ 65535)
    (hc : ∀ k, link.connected k = true) (ha : ∀ k, link.indicateOk k = true) :
    ((transmitted (IndicateOnly.sendInternal true pServer link t p)).flatten.map Fin.val
        = t.val :: (p.length % 256) :: (p.length / 256) :: p.map Fin.val
      ∧ (∀ f ∈ (transmitted (IndicateOnly.sendInternal true pServer link t p)).dropLast,
          f.length = U - 4)
      ∧ ∃ l, (transmitted (IndicateOnly.sendInternal true pServer link t p)).getLast? = some l
          ∧ l ≠ [])
    ∧ ((transmitted (Configurable.sendInternal true pServer useIndication t p)).flatten.map
          Fin.val
        = t.val :: (p.length % 256) :: (p.length / 256) :: p.map Fin.val
      ∧ (∀ f ∈ (transmitted
            (Configurable.sendInternal true pServer useIndication t p)).dropLast,
          f.length = U - 4)
      ∧ ∃ l, (transmitted (Configurable.sendInternal true pServer useIndication t p)).getLast?
            = some l
          ∧ l ≠ []) := by
  subst hmtu
  rw [indicate_transmitted pServer link t p hconn hU hc ha,
    configurable_transmitted pServer useIndication t p hconn hU]
  obtain ⟨hfl, hb, hfull, hne, _⟩ := slices_message t p (getMTU pServer - 4) (by omega)
  have hv : (slices (frameBuffer t p) (getMTU pServer - 4) (p.length + 3)
      (p.length + 3) 0).flatten.map Fin.val
      = t.val :: (p.length % 256) :: (p.length / 256) :: p.map Fin.val := by
    rw [hfl, frameBuffer_vals t p hlen]
  exact ⟨⟨hv, hfull, last_nonempty _ hne hb⟩, ⟨hv, hfull, last_nonempty _ hne hb⟩⟩

/-- Witness for C3: type 5, payload of 4 bytes, unit size 7. -/
theorem wire_format_witness :
    (isConnected (some ⟨1, [7]⟩) = true ∧ getMTU (some ⟨1, [7]⟩) = 7 ∧ 5 ≤ 7
      ∧ ([10, 20, 30, 40] : List Byte).length ≤ 65535)
    ∧ (transmitted (IndicateOnly.sendInternal true (some ⟨1, [7]⟩) Link.steady 5
        [10, 20, 30, 40])).flatten.map Fin.val
        = (5 : Byte).val :: (([10, 20, 30, 40] : List Byte).length % 256)
            :: (([10, 20, 30, 40] : List Byte).length / 256)
            :: ([10, 20, 30, 40] : List Byte).map Fin.val
    ∧ (transmitted (Configurable.sendInternal true (some ⟨1, [7]⟩) true 5
        [10, 20, 30, 40])).flatten.map Fin.val
        = (5 : Byte).val :: (([10, 20, 30, 40] : List Byte).length % 256)
            :: (([10, 20, 30, 40] : List Byte).length / 256)
            :: ([10, 20, 30, 40] : List Byte).map Fin.val := by
  have key := wire_format (some ⟨1, [7]⟩) Link.steady true 5 [10, 20, 30, 40] 7
    (by decide) (by decide) (by decide) (by decide) (fun _ => rfl) (fun _ => rfl)
  exact ⟨by decide, key.1.1, key.2.1⟩

section Receive

variable {Doc : Type} (deserializeJson : List Byte → Option Doc) (h : Handlers)

/-- C4. Fragmented-chunk robustness, indicate-only variant: for every message
`m = [t, lenLo, lenHi] ++ p` with `length(p) = lenLo + 256 * lenHi` and every split of `m`
into consecutive non-empty chunks (in particular one byte per event), feeding the chunks one
per `onWrite` event to a reassembler in its initial state completes nothing before the last
chunk and exactly one message on the last chunk, the same message (type `t`, payload `p`)
as when `m` is delivered in a single event. -/
theorem fragmented_chunk_robustness (t lenLo lenHi : Byte) (p : List Byte)
    (chunks : List (List Byte))
    (hp : p.length = lenLo.val + 256 * lenHi.val)
    (hne : ∀ c ∈ chunks, c ≠ [])
    (hsplit : chunks.flatten = t :: lenLo :: lenHi :: p) :
    ∃ msg : Completed Doc,
      (feed (IndicateOnly.onWrite deserializeJson h) RxState.initial
          [t :: lenLo :: lenHi :: p]).2 = [some msg]
      ∧ (feed (IndicateOnly.onWrite deserializeJson h) RxState.initial chunks).2
          = List.replicate (chunks.length - 1) none ++ [some msg]
      ∧ (feed (IndicateOnly.onWrite deserializeJson h) RxState.initial
          ((t :: lenLo :: lenHi :: p).map fun b => [b])).2
          = List.replicate (p.length + 2) none ++ [some msg]
      ∧ msg.type = t ∧ msg.payload = p := by
  refine ⟨⟨t, p, dispatch deserializeJson h t p⟩, ?_, ?_, ?_, rfl, rfl⟩
  · have := indicate_feed_header deserializeJson h t lenLo lenHi p hp
      [t :: lenLo :: lenHi :: p] [] 0 0 (by simp) (by simp) (by decide) (by simp)
    exact congrArg Prod.snd this
  · have hcn : chunks ≠ [] := by
      intro h0; rw [h0] at hsplit; simp at hsplit
    have := indicate_feed_header deserializeJson h t lenLo lenHi p hp
      chunks [] 0 0 hcn hne (by decide) (by rw [List.nil_append, hsplit])
    exact congrArg Prod.snd this
  · have := indicate_feed_header deserializeJson h t lenLo lenHi p hp
      ((t :: lenLo :: lenHi :: p).map fun b => [b]) [] 0 0 (by simp) (by simp) (by decide)
      (by rw [List.nil_append, flatten_map_singleton])
    have h2 := congrArg Prod.snd this
    simpa using h2

end Receive

/-- Witness for C4: the message `[7, 2, 0, 0xAA, 0xBB]` split as `[7, 2] [0, 0xAA] [0xBB]`. -/
theorem fragmented_chunk_robustness_witness :
    (([0xAA, 0xBB] : List Byte).length = (2 : Byte).val + 256 * (0 : Byte).val
      ∧ ([[7, 2], [0, 0xAA], [0xBB]] : List (List Byte)).flatten = [7, 2, 0, 0xAA, 0xBB])
    ∧ ∃ msg : Completed Unit,
      (feed (IndicateOnly.onWrite (fun _ => none) ⟨true, false⟩) RxState.initial
          [[7, 2, 0, 0xAA, 0xBB]]).2 = [some msg]
      ∧ (feed (IndicateOnly.onWrite (fun _ => none) ⟨true, false⟩) RxState.initial
          [[7, 2], [0, 0xAA], [0xBB]]).2
          = List.replicate (([[7, 2], [0, 0xAA], [0xBB]] : List (List Byte)).length - 1) none
            ++ [some msg]
      ∧ (feed (IndicateOnly.onWrite (fun _ => none) ⟨true, false⟩) RxState.initial
          (([7, 2, 0, 0xAA, 0xBB] : List Byte).map fun b => [b])).2
          = List.replicate (([0xAA, 0xBB] : List Byte).length + 2) none ++ [some msg]
      ∧ msg.type = 7 ∧ msg.payload = [0xAA, 0xBB] :=
  ⟨by decide,
    fragmented_chunk_robustness (fun _ => none) ⟨true, false⟩ 7 2 0 [0xAA, 0xBB]
      [[7, 2], [0, 0xAA], [0xBB]] (by decide) (by decide) (by decide)⟩

theorem sizeSub_of_le (a b : Nat) (hab : b ≤ a) (ha : a < SIZE_RANGE) : sizeSub a b = a - b := by
  unfold sizeSub
  unfold SIZE_RANGE at *
  omega

section Receive

variable {Doc : Type} (deserializeJson : List Byte → Option Doc) (h : Handlers)

/-! ## The completion check -/

theorem checkComplete_some (s s1 : RxState) (msg : Completed Doc)
    (hc : checkComplete deserializeJson h s = (s1, some msg)) :
    s1 = { s with headerReceived := false, rxBuffer := [] }
    ∧ msg = ⟨s.expectedType, s.rxBuffer, dispatch deserializeJson h s.expectedType s.rxBuffer⟩
    ∧ s.expectedLen ≤ s.rxBuffer.length ∧ s.headerReceived = true := by
  unfold checkComplete at hc
  split at hc
  · rename_i hcond
    simp only [Bool.and_eq_true, decide_eq_true_eq] at hcond
    simp only [Prod.mk.injEq, Option.some.injEq] at hc
    exact ⟨hc.1.symm, hc.2.symm, hcond.1, hcond.2⟩
  · simp at hc

theorem indicate_onWrite_some (s s1 : RxState) (data : List Byte) (msg : Completed Doc)
    (hc : IndicateOnly.onWrite deserializeJson h s data = (s1, some msg)) :
    ∃ s0 : RxState, checkComplete deserializeJson h s0 = (s1, some msg) := by
  unfold IndicateOnly.onWrite at hc
  split at hc
  · simp at hc
  · split at hc
    · simp only at hc
      split at hc
      · exact ⟨_, hc⟩
      · simp at hc
    · exact ⟨_, hc⟩

theorem configurable_onWrite_some (s s1 : RxState) (data : List Byte) (msg : Completed Doc)
    (hc : Configurable.onWrite deserializeJson h s data = (s1, some msg)) :
    ∃ s0 : RxState, checkComplete deserializeJson h s0 = (s1, some msg) := by
  unfold Configurable.onWrite at hc
  simp only at hc
  split at hc
  · simp at hc
  · split at hc
    · simp at hc
    · exact ⟨_, hc⟩

end Receive

section Receive

variable {Doc : Type} (deserializeJson : List Byte → Option Doc) (h : Handlers)

/-- Steps 2 and 3 of the configurable `onWrite` as one equation: with the header known
(`s1`, payload starting at `offset`) and more bytes available than are owed, exactly the
owed bytes are appended and the message completes. -/
theorem configurable_tail_surplus (s1 : RxState) (data : List Byte) (offset : Nat)
    (hhdr : s1.headerReceived = true) (hrange : s1.expectedLen < SIZE_RANGE)
    (hinv : s1.rxBuffer.length ≤ s1.expectedLen)
    (hsur : s1.expectedLen - s1.rxBuffer.length < data.length - offset) :
    ∃ (msg : Completed Doc) (s2 : RxState),
      checkComplete deserializeJson h
        (if min (data.length - offset) (sizeSub s1.expectedLen s1.rxBuffer.length) > 0 then
          { s1 with
            rxBuffer := s1.rxBuffer ++ List.take
              (min (data.length - offset) (sizeSub s1.expectedLen s1.rxBuffer.length))
              (data.drop offset) }
        else s1) = (s2, some msg)
      ∧ msg.type = s1.expectedType
      ∧ msg.payload
          = s1.rxBuffer ++ (data.drop offset).take (s1.expectedLen - s1.rxBuffer.length)
      ∧ msg.dispatch = dispatch deserializeJson h s1.expectedType msg.payload
      ∧ s2.headerReceived = false ∧ s2.rxBuffer = [] := by
  refine ⟨⟨s1.expectedType,
      s1.rxBuffer ++ (data.drop offset).take (s1.expectedLen - s1.rxBuffer.length),
      dispatch deserializeJson h s1.expectedType
        (s1.rxBuffer ++ (data.drop offset).take (s1.expectedLen - s1.rxBuffer.length))⟩,
    { s1 with headerReceived := false, rxBuffer := [] }, ?_, rfl, rfl, rfl, rfl, rfl⟩
  rw [sizeSub_of_le _ _ hinv hrange, Nat.min_eq_right (Nat.le_of_lt hsur)]
  by_cases hr : s1.expectedLen - s1.rxBuffer.length > 0
  · rw [if_pos hr]
    have hlen : s1.expectedLen ≤ s1.rxBuffer.length
        + min (s1.expectedLen - s1.rxBuffer.length) (data.length - offset) := by
      rw [Nat.min_eq_left (Nat.le_of_lt hsur)]; omega
    simp [checkComplete, hhdr, hlen]
  · rw [if_neg hr]
    have h0 : s1.expectedLen - s1.rxBuffer.length = 0 := by omega
    have hle : s1.expectedLen ≤ s1.rxBuffer.length := by omega
    simp [checkComplete, hhdr, h0, hle]

end Receive

/-- C5, the code at the failing input: from the initial state, one chunk holding the header
of a 1-byte message of type 5 followed by two bytes. The indicate-only `onWrite` hands both
bytes to the binary handler, with length 2; the configurable `onWrite` hands over the one
declared byte. -/
theorem indicate_only_hands_over_surplus :
    IndicateOnly.onWrite (fun _ => (none : Option Unit)) ⟨true, false⟩ RxState.initial
        [5, 1, 0, 0xAA, 0xBB]
      = ({ rxBuffer := [], expectedType := 5, expectedLen := 1, headerReceived := false },
          some ⟨5, [0xAA, 0xBB], Dispatch.binaryHandler 5 [0xAA, 0xBB] 2⟩)
    ∧ Configurable.onWrite (fun _ => (none : Option Unit)) ⟨true, false⟩ RxState.initial
        [5, 1, 0, 0xAA, 0xBB]
      = ({ rxBuffer := [], expectedType := 5, expectedLen := 1, headerReceived := false },
          some ⟨5, [0xAA], Dispatch.binaryHandler 5 [0xAA] 1⟩) := by
  decide

section Receive

variable {Doc : Type} (deserializeJson : List Byte → Option Doc) (h : Handlers)

/-- C6. Surplus bytes in the configurable variant: let the current message be the one of
the accumulator (`headerReceived = true`, with `buffer.size() ≤ expectedLength` bytes
received) or the one whose header opens the chunk (`headerReceived = false`, chunk of at
least 3 bytes). When the chunk carries more payload bytes than the message still owes,
`onWrite` appends only the first `expectedLength - buffer.size()` of them, the completed
message has exactly `expectedLength` bytes, and the surplus is discarded: the state after the
event has `headerReceived = false` and an empty buffer, the event completing this one
message only. -/
theorem configurable_surplus_discarded (s : RxState) (data : List Byte)
    (ty : Byte) (expected offset : Nat) (buf : List Byte)
    (hrange : s.expectedLen < SIZE_RANGE)
    (hphase :
      (s.headerReceived = true ∧ ty = s.expectedType ∧ expected = s.expectedLen
        ∧ offset = 0 ∧ buf = s.rxBuffer ∧ buf.length ≤ expected)
      ∨ (s.headerReceived = false ∧ 3 ≤ data.length ∧ ty = data.getD 0 0
        ∧ expected = (data.getD 1 0).val + 256 * (data.getD 2 0).val
        ∧ offset = 3 ∧ buf = []))
    (hsurplus : expected - buf.length < data.length - offset) :
    ∃ (msg : Completed Doc) (s1 : RxState),
      Configurable.onWrite deserializeJson h s data = (s1, some msg)
      ∧ msg.type = ty
      ∧ msg.payload = buf ++ (data.drop offset).take (expected - buf.length)
      ∧ msg.payload.length = expected
      ∧ msg.dispatch = dispatch deserializeJson h ty msg.payload
      ∧ s1.headerReceived = false ∧ s1.rxBuffer = [] := by
  have hlen0 : data.length ≠ 0 := by omega
  rcases hphase with ⟨hh, rfl, rfl, rfl, rfl, hinv⟩ | ⟨hh, h3, rfl, rfl, rfl, rfl⟩
  · obtain ⟨msg, s2, hk, hty, hpay, hdis, hs⟩ :=
      configurable_tail_surplus deserializeJson h s data 0 hh hrange hinv hsurplus
    refine ⟨msg, s2, ?_, hty, hpay, ?_, hdis, hs⟩
    · unfold Configurable.onWrite
      simp only [hlen0, if_false, hh, Bool.not_true, Bool.false_eq_true]
      simpa only [hh] using hk
    · rw [hpay]
      simp only [List.length_append, List.length_take, List.length_drop]
      omega
  · have hr : (data.getD 1 0).val + 256 * (data.getD 2 0).val < SIZE_RANGE := by
      have h1 := (data.getD 1 0).isLt
      have h2 := (data.getD 2 0).isLt
      unfold SIZE_RANGE
      omega
    obtain ⟨msg, s2, hk, hty, hpay, hdis, hs⟩ := configurable_tail_surplus deserializeJson h
      { rxBuffer := [], expectedType := data.getD 0 0,
        expectedLen := (data.getD 1 0).val + 256 * (data.getD 2 0).val,
        headerReceived := true } data 3 rfl hr (Nat.zero_le _) hsurplus
    refine ⟨msg, s2, ?_, hty, hpay, ?_, hdis, hs⟩
    · unfold Configurable.onWrite
      simp only [hlen0, if_false, hh, Bool.not_false, if_true, ge_iff_le, h3, lor_shl8]
      exact hk
    · rw [hpay]
      simp only [List.length_nil, Nat.sub_zero] at hsurplus
      simp only [List.length_append, List.length_take, List.length_drop, List.length_nil,
        Nat.sub_zero, Nat.zero_add]
      omega

end Receive

/-- Witness for C6: two bytes already buffered of a 3-byte message of type 5, and a chunk
of four bytes. -/
theorem configurable_surplus_discarded_witness :
    ((4 : Nat) < SIZE_RANGE ∧ ([1, 2] : List Byte).length ≤ 3
      ∧ 3 - ([1, 2] : List Byte).length < ([9, 8, 7, 6] : List Byte).length - 0)
    ∧ ∃ (msg : Completed Unit) (s1 : RxState),
      Configurable.onWrite (fun _ => none) ⟨true, false⟩
          { rxBuffer := [1, 2], expectedType := 5, expectedLen := 3, headerReceived := true }
          [9, 8, 7, 6] = (s1, some msg)
      ∧ msg.type = 5
      ∧ msg.payload = [1, 2] ++ (([9, 8, 7, 6] : List Byte).drop 0).take
          (3 - ([1, 2] : List Byte).length)
      ∧ msg.payload.length = 3
      ∧ msg.dispatch = dispatch (fun _ => none) ⟨true, false⟩ 5 msg.payload
      ∧ s1.headerReceived = false ∧ s1.rxBuffer = [] :=
  ⟨by decide,
    configurable_surplus_discarded (fun _ => none) ⟨true, false⟩
      { rxBuffer := [1, 2], expectedType := 5, expectedLen := 3, headerReceived := true }
      [9, 8, 7, 6] 5 3 0 [1, 2] (by decide)
      (Or.inl ⟨rfl, rfl, rfl, rfl, rfl, by decide⟩) (by decide)⟩

section Receive

variable {Doc : Type} (deserializeJson : List Byte → Option Doc) (h : Handlers)

/-- C8. Idempotent reset: for every reassembler state and every `onWrite` event on which a
message completes, the state after the event has `headerReceived = false` and an empty
buffer, for every JSON decoder outcome and every registration of the handlers (so whichever
dispatch path was taken), in both variants. -/
theorem idempotent_reset (s s1 : RxState) (data : List Byte) (msg : Completed Doc)
    (hw : IndicateOnly.onWrite deserializeJson h s data = (s1, some msg)
      ∨ Configurable.onWrite deserializeJson h s data = (s1, some msg)) :
    s1.headerReceived = false ∧ s1.rxBuffer = [] := by
  rcases hw with hw | hw
  · obtain ⟨s0, hc⟩ := indicate_onWrite_some deserializeJson h s s1 data msg hw
    obtain ⟨hs, _⟩ := checkComplete_some deserializeJson h s0 s1 msg hc
    rw [hs]; exact ⟨rfl, rfl⟩
  · obtain ⟨s0, hc⟩ := configurable_onWrite_some deserializeJson h s s1 data msg hw
    obtain ⟨hs, _⟩ := checkComplete_some deserializeJson h s0 s1 msg hc
    rw [hs]; exact ⟨rfl, rfl⟩

/-- C9 as amended. Type dispatch in both variants: every message `(type, buffer)` completed
by `onWrite` is dispatched as follows. With `type = 0` and a JSON handler registered, the
buffer is decoded and the JSON handler gets the document, or nothing is invoked when
decoding fails. Otherwise (`type ≠ 0`, or no JSON handler registered) the binary handler,
when registered, is invoked with exactly `(type, buffer, buffer.size())`, also for `type = 0`;
when it is not registered no handler is invoked. -/
theorem type_dispatch (s s1 : RxState) (data : List Byte) (msg : Completed Doc)
    (hw : IndicateOnly.onWrite deserializeJson h s data = (s1, some msg)
      ∨ Configurable.onWrite deserializeJson h s data = (s1, some msg)) :
    (msg.type = TYPE_JSON → h.jsonHandler = true →
      (∀ doc, deserializeJson msg.payload = some doc → msg.dispatch = Dispatch.jsonHandler doc)
      ∧ (deserializeJson msg.payload = none → msg.dispatch = Dispatch.jsonError))
    ∧ ((msg.type ≠ TYPE_JSON ∨ h.jsonHandler = false) → h.binaryHandler = true →
      msg.dispatch = Dispatch.binaryHandler msg.type msg.payload msg.payload.length)
    ∧ ((msg.type ≠ TYPE_JSON ∨ h.jsonHandler = false) → h.binaryHandler = false →
      msg.dispatch = Dispatch.dropped) := by
  have hmsg : msg.dispatch = dispatch deserializeJson h msg.type msg.payload := by
    rcases hw with hw | hw
    · obtain ⟨s0, hc⟩ := indicate_onWrite_some deserializeJson h s s1 data msg hw
      obtain ⟨_, hm, _⟩ := checkComplete_some deserializeJson h s0 s1 msg hc
      rw [hm]
    · obtain ⟨s0, hc⟩ := configurable_onWrite_some deserializeJson h s s1 data msg hw
      obtain ⟨_, hm, _⟩ := checkComplete_some deserializeJson h s0 s1 msg hc
      rw [hm]
  rw [hmsg]
  refine ⟨?_, ?_, ?_⟩
  · intro ht hj
    constructor
    · intro doc hd
      simp [dispatch, ht, hj, hd]
    · intro hd
      simp [dispatch, ht, hj, hd]
  · intro hcond hb
    rcases hcond with ht | hj
    · have : (msg.type == TYPE_JSON) = false := by simpa using ht
      simp [dispatch, this, hb]
    · simp [dispatch, hj, hb]
  · intro hcond hb
    rcases hcond with ht | hj
    · have : (msg.type == TYPE_JSON) = false := by simpa using ht
      simp [dispatch, this, hb]
    · simp [dispatch, hj, hb]

end Receive

/-- Witness for C8: the message `[0, 1, 0, 0x7B]` of type 0 completes in the configurable
variant from a state with a stale buffer, on the JSON decode failure path. -/
theorem idempotent_reset_witness :
    Configurable.onWrite (fun _ => (none : Option Unit)) ⟨true, true⟩
        { rxBuffer := [1, 2], expectedType := 9, expectedLen := 2, headerReceived := false }
        [0, 1, 0, 0x7B]
      = ({ rxBuffer := [], expectedType := 0, expectedLen := 1, headerReceived := false },
          some ⟨0, [0x7B], Dispatch.jsonError⟩)
    ∧ ({ rxBuffer := [], expectedType := 0, expectedLen := 1, headerReceived := false }
        : RxState).headerReceived = false
    ∧ ({ rxBuffer := [], expectedType := 0, expectedLen := 1, headerReceived := false }
        : RxState).rxBuffer = [] :=
  ⟨by decide,
    idempotent_reset (fun _ => (none : Option Unit)) ⟨true, true⟩
      { rxBuffer := [1, 2], expectedType := 9, expectedLen := 2, headerReceived := false }
      { rxBuffer := [], expectedType := 0, expectedLen := 1, headerReceived := false }
      [0, 1, 0, 0x7B] ⟨0, [0x7B], Dispatch.jsonError⟩ (Or.inr (by decide))⟩

/-- C9, counterexample: a completed message of type 0 (`TYPE_JSON`) with no JSON handler
registered and a binary handler registered is not dropped; the binary handler is invoked
with type 0, in both variants. -/
theorem type_dispatch_json_falls_to_binary :
    (IndicateOnly.onWrite (fun _ => (none : Option Unit)) ⟨true, false⟩ RxState.initial
        [0, 1, 0, 0x7B]).2 = some ⟨0, [0x7B], Dispatch.binaryHandler 0 [0x7B] 1⟩
    ∧ (Configurable.onWrite (fun _ => (none : Option Unit)) ⟨true, false⟩ RxState.initial
        [0, 1, 0, 0x7B]).2 = some ⟨0, [0x7B], Dispatch.binaryHandler 0 [0x7B] 1⟩ := by
  decide

/-- Witness for C9 as amended: the type-0 message `[0, 1, 0, 0x7B]` with only a binary
handler registered. -/
theorem type_dispatch_witness :
    IndicateOnly.onWrite (fun _ => (none : Option Unit)) ⟨true, false⟩ RxState.initial
        [0, 1, 0, 0x7B]
      = ({ rxBuffer := [], expectedType := 0, expectedLen := 1, headerReceived := false },
          some ⟨0, [0x7B], Dispatch.binaryHandler 0 [0x7B] 1⟩)
    ∧ (Dispatch.binaryHandler 0 [0x7B] 1 : Dispatch Unit)
        = Dispatch.binaryHandler 0 [0x7B] ([0x7B] : List Byte).length :=
  ⟨by decide,
    (type_dispatch (fun _ => (none : Option Unit)) ⟨true, false⟩ RxState.initial
      { rxBuffer := [], expectedType := 0, expectedLen := 1, headerReceived := false }
      [0, 1, 0, 0x7B] ⟨0, [0x7B], Dispatch.binaryHandler 0 [0x7B] 1⟩
      (Or.inl (by decide))).2.1 (Or.inr rfl) rfl⟩

/-- C10 as amended. Frame too small: for every unit size `U < 5` (no room for a frame of
one byte), `sendInternal` performs no transmit call and no delay, for every type and
payload, in both variants. -/
theorem frame_too_small (pChar : Bool) (pServer : Option Server) (link : Link)
    (useIndication : Bool) (t : Byte) (p : List Byte) (hU : getMTU pServer < 5) :
    IndicateOnly.sendInternal pChar pServer link t p = []
    ∧ Configurable.sendInternal pChar pServer useIndication t p = [] := by
  constructor
  · unfold IndicateOnly.sendInternal
    simp only [hU, if_true]
    split <;> rfl
  · unfold Configurable.sendInternal
    simp only [hU, if_true]
    split <;> rfl

/-- Witness for C10 as amended: a peer with unit size 4. -/
theorem frame_too_small_witness :
    getMTU (some ⟨1, [4]⟩) < 5
    ∧ IndicateOnly.sendInternal true (some ⟨1, [4]⟩) Link.steady 5 [1, 2] = []
    ∧ Configurable.sendInternal true (some ⟨1, [4]⟩) false 5 [1, 2] = [] :=
  ⟨by decide, frame_too_small true (some ⟨1, [4]⟩) Link.steady false 5 [1, 2] (by decide)⟩

/-- C10, counterexample: with unit size 5 the frame size is 1, too small for the 3-byte
header, and both variants still transmit, one byte per frame. -/
theorem frame_too_small_still_sends :
    getMTU (some ⟨1, [5]⟩) - 4 < 3
    ∧ transmitted (IndicateOnly.sendInternal true (some ⟨1, [5]⟩) Link.steady 5 [1, 2])
        = [[5], [2], [0], [1], [2]]
    ∧ transmitted (Configurable.sendInternal true (some ⟨1, [5]⟩) true 5 [1, 2])
        = [[5], [2], [0], [1], [2]] := by
  decide

section Receive

variable {Doc : Type} (deserializeJson : List Byte → Option Doc) (h : Handlers)

/-! ## The configurable reassembler on a well-formed message -/

theorem configurable_step_payload (t : Byte) (L : Nat) (hL : L < SIZE_RANGE)
    (pre c : List Byte) (hc : c ≠ []) (hfit : pre.length + c.length ≤ L) :
    Configurable.onWrite deserializeJson h
        { rxBuffer := pre, expectedType := t, expectedLen := L, headerReceived := true } c
      = checkComplete deserializeJson h
        { rxBuffer := pre ++ c, expectedType := t, expectedLen := L, headerReceived := true } := by
  have hclen : c.length ≠ 0 := by
    intro h0; exact hc (List.length_eq_zero.1 h0)
  have hpos : 0 < c.length := Nat.pos_of_ne_zero hclen
  unfold Configurable.onWrite
  simp only [hclen, if_false, Bool.not_true, Bool.false_eq_true, Nat.sub_zero, List.drop_zero]
  rw [sizeSub_of_le _ _ (by omega) hL, Nat.min_eq_left (by omega), if_pos hpos,
    List.take_of_length_le (Nat.le_refl _)]

theorem configurable_step_header (t lo hi : Byte) (q : List Byte) (s : RxState)
    (hs : s.headerReceived = false) (hfit : q.length ≤ lo.val + 256 * hi.val) :
    Configurable.onWrite deserializeJson h s (t :: lo :: hi :: q)
      = checkComplete deserializeJson h
        { rxBuffer := q, expectedType := t, expectedLen := lo.val + 256 * hi.val,
          headerReceived := true } := by
  have hr : lo.val + 256 * hi.val < SIZE_RANGE := by
    have h1 := lo.isLt
    have h2 := hi.isLt
    unfold SIZE_RANGE
    omega
  unfold Configurable.onWrite
  simp only [List.length_cons, Nat.add_one_ne_zero, if_false, hs, Bool.not_false, if_true,
    ge_iff_le, Nat.le_add_left, List.getD_cons_zero, List.getD_cons_succ, lor_shl8,
    List.length_nil, Nat.add_sub_cancel, List.drop_succ_cons, List.drop_zero, List.nil_append]
  have h3 : q.length + 1 + 1 + 1 - 3 = q.length := by omega
  rw [sizeSub_of_le _ _ (Nat.zero_le _) hr, Nat.sub_zero, h3, Nat.min_eq_left hfit]
  by_cases hq : q.length > 0
  · rw [if_pos hq, List.take_of_length_le (Nat.le_refl _)]
  · rw [if_neg hq]
    have : q = [] := List.length_eq_zero.1 (by omega)
    rw [this]

/-- Payload phase of the configurable reassembler. -/
theorem configurable_feed_payload (t : Byte) (L : Nat) (hL : L < SIZE_RANGE) :
    ∀ (chunks : List (List Byte)) (pre : List Byte), chunks ≠ [] → (∀ c ∈ chunks, c ≠ []) →
      pre.length + chunks.flatten.length = L →
      feed (Configurable.onWrite deserializeJson h)
          { rxBuffer := pre, expectedType := t, expectedLen := L, headerReceived := true } chunks
        = ({ rxBuffer := [], expectedType := t, expectedLen := L, headerReceived := false },
            List.replicate (chunks.length - 1) none ++
              [some ⟨t, pre ++ chunks.flatten,
                dispatch deserializeJson h t (pre ++ chunks.flatten)⟩]) := by
  intro chunks
  induction chunks with
  | nil => intro pre hne; exact absurd rfl hne
  | cons c cs ih =>
    intro pre _ hc hLen
    have hcne : c ≠ [] := hc c (List.mem_cons_self _ _)
    have hcs : ∀ x ∈ cs, x ≠ [] := fun x hx => hc x (List.mem_cons_of_mem _ hx)
    simp only [List.flatten_cons, List.length_append] at hLen
    have hstep := configurable_step_payload deserializeJson h t L hL pre c hcne (by omega)
    by_cases hnil : cs = []
    · subst hnil
      simp only [List.flatten_nil, List.length_nil, Nat.add_zero] at hLen
      have hge : L ≤ pre.length + c.length := by omega
      simp [feed, hstep, checkComplete, hge]
    · have hpos := flatten_pos cs hnil hcs
      have hlt : pre.length + c.length < L := by omega
      have hstep2 : Configurable.onWrite deserializeJson h
          { rxBuffer := pre, expectedType := t, expectedLen := L, headerReceived := true } c
          = ({ rxBuffer := pre ++ c, expectedType := t, expectedLen := L,
               headerReceived := true }, none) := by
        rw [hstep]
        simp [checkComplete, hlt]
      have hrec := ih (pre ++ c) hnil hcs (by simp only [List.length_append]; omega)
      obtain ⟨n, hn⟩ : ∃ n, cs.length = n + 1 := by
        rcases cs with _ | ⟨x, cs⟩
        · exact absurd rfl hnil
        · exact ⟨cs.length, rfl⟩
      simp only [feed, hstep2, hrec, List.flatten_cons, List.append_assoc, List.length_cons, hn,
        Nat.add_sub_cancel, List.replicate_succ, List.cons_append]

/-- A whole message through the configurable reassembler: from any state that awaits a
header, chunks whose first one holds the full header complete the message on the last
chunk. -/
theorem configurable_feed_message (t lo hi : Byte) (p : List Byte)
    (hp : p.length = lo.val + 256 * hi.val) (c : List Byte) (cs : List (List Byte))
    (s : RxState) (hs : s.headerReceived = false) (h3 : 3 ≤ c.length)
    (hcs : ∀ x ∈ cs, x ≠ []) (hm : c ++ cs.flatten = t :: lo :: hi :: p) :
    feed (Configurable.onWrite deserializeJson h) s (c :: cs)
      = ({ rxBuffer := [], expectedType := t, expectedLen := p.length, headerReceived := false },
          List.replicate cs.length none ++ [some ⟨t, p, dispatch deserializeJson h t p⟩]) := by
  obtain ⟨q, hq, hrest⟩ := prefix3 c cs.flatten p t lo hi hm h3
  subst hq
  have hql : q.length + cs.flatten.length = p.length := by rw [← hrest, List.length_append]
  have hstep := configurable_step_header deserializeJson h t lo hi q s hs (by omega)
  rw [← hp] at hstep
  have hr : p.length < SIZE_RANGE := by
    have h1 := lo.isLt
    have h2 := hi.isLt
    unfold SIZE_RANGE
    omega
  by_cases hnil : cs = []
  · subst hnil
    simp only [List.flatten_nil, List.append_nil] at hrest
    subst hrest
    simp [feed, hstep, checkComplete]
  · have hpos := flatten_pos cs hnil hcs
    have hlt : q.length < p.length := by omega
    have hstep2 : Configurable.onWrite deserializeJson h s (t :: lo :: hi :: q)
        = ({ rxBuffer := q, expectedType := t, expectedLen := p.length,
             headerReceived := true }, none) := by
      rw [hstep]
      simp [checkComplete, hlt]
    have hrec := configurable_feed_payload deserializeJson h t p.length hr cs q hnil hcs hql
    obtain ⟨n, hn⟩ : ∃ n, cs.length = n + 1 := by
      rcases cs with _ | ⟨x, cs⟩
      · exact absurd rfl hnil
      · exact ⟨cs.length, rfl⟩
    simp only [feed, hstep2, hrec, hrest, hn, Nat.add_sub_cancel, List.replicate_succ,
      List.cons_append]

end Receive

/-- C7, counterexample. A message of type 5 declaring 4 payload bytes is partially received
(`[5, 4, 0, 1, 2]`), the peer disconnects, a peer connects and sends the complete message
`[7, 1, 0, 9]`. The accumulator is not back in its initial state after the two events, and
the message dispatched is not the new one: it has the type of the abandoned message and
starts with its bytes, in both variants. -/
theorem disconnect_leaks_partial_message :
    (onConnect (onDisconnect
        ⟨(IndicateOnly.onWrite (fun _ => (none : Option Unit)) ⟨true, false⟩ RxState.initial
          [5, 4, 0, 1, 2]).1, false⟩)).rx
      = { rxBuffer := [1, 2], expectedType := 5, expectedLen := 4, headerReceived := true }
    ∧ (IndicateOnly.onWrite (fun _ => (none : Option Unit)) ⟨true, false⟩
        (onConnect (onDisconnect
          ⟨(IndicateOnly.onWrite (fun _ => (none : Option Unit)) ⟨true, false⟩ RxState.initial
            [5, 4, 0, 1, 2]).1, false⟩)).rx [7, 1, 0, 9]).2
      = some ⟨5, [1, 2, 7, 1, 0, 9], Dispatch.binaryHandler 5 [1, 2, 7, 1, 0, 9] 6⟩
    ∧ (Configurable.onWrite (fun _ => (none : Option Unit)) ⟨true, false⟩
        (onConnect (onDisconnect
          ⟨(Configurable.onWrite (fun _ => (none : Option Unit)) ⟨true, false⟩ RxState.initial
            [5, 4, 0, 1, 2]).1, false⟩)).rx [7, 1, 0, 9]).2
      = some ⟨5, [1, 2, 7, 1], Dispatch.binaryHandler 5 [1, 2, 7, 1] 4⟩
    ∧ (IndicateOnly.onWrite (fun _ => (none : Option Unit)) ⟨true, false⟩ RxState.initial
        [7, 1, 0, 9]).2 = some ⟨7, [9], Dispatch.binaryHandler 7 [9] 1⟩ := by
  decide

section Receive

variable {Doc : Type} (deserializeJson : List Byte → Option Doc) (h : Handlers)

/-- C7 as amended. The disconnect and connect events leave the receive accumulator as it
is, in every state and in both variants, also in the middle of a message: the reassembler
resumes in the state it had at the disconnect, and every sequence of chunks written after
the reconnection is processed exactly as it would have been without the two events. A
brand-new complete message `[t, lenLo, lenHi] ++ p`, delivered in non-empty chunks after the
reconnection, is dispatched as that message (type `t`, payload `p`, on its last chunk) when
at the disconnect the accumulator awaited a header with an empty buffer (indicate-only
variant), or awaited a header and the first chunk holds the 3 header bytes (configurable
variant). -/
theorem disconnect_keeps_accumulator (d : Device) (chunks : List (List Byte))
    (t lenLo lenHi : Byte) (p c : List Byte) (cs : List (List Byte)) :
    (onDisconnect d).rx = d.rx ∧ (onConnect (onDisconnect d)).rx = d.rx
    ∧ feed (IndicateOnly.onWrite deserializeJson h) (onConnect (onDisconnect d)).rx chunks
        = feed (IndicateOnly.onWrite deserializeJson h) d.rx chunks
    ∧ feed (Configurable.onWrite deserializeJson h) (onConnect (onDisconnect d)).rx chunks
        = feed (Configurable.onWrite deserializeJson h) d.rx chunks
    ∧ (p.length = lenLo.val + 256 * lenHi.val → c ≠ [] → (∀ x ∈ cs, x ≠ []) →
        c ++ cs.flatten = t :: lenLo :: lenHi :: p →
        (d.rx.headerReceived = false → d.rx.rxBuffer = [] →
          (feed (IndicateOnly.onWrite deserializeJson h) (onConnect (onDisconnect d)).rx
            (c :: cs)).2
            = List.replicate cs.length none
              ++ [some ⟨t, p, dispatch deserializeJson h t p⟩])
        ∧ (d.rx.headerReceived = false → 3 ≤ c.length →
          (feed (Configurable.onWrite deserializeJson h) (onConnect (onDisconnect d)).rx
            (c :: cs)).2
            = List.replicate cs.length none
              ++ [some ⟨t, p, dispatch deserializeJson h t p⟩])) := by
  have hrx : (onConnect (onDisconnect d)).rx = d.rx := rfl
  refine ⟨rfl, rfl, rfl, rfl, ?_⟩
  intro hp hc hcs hm
  constructor
  · intro hidle hbuf
    rw [hrx]
    have hall : ∀ x ∈ c :: cs, x ≠ [] := by
      intro x hx
      rcases List.mem_cons.1 hx with rfl | hx
      · exact hc
      · exact hcs x hx
    have hst : d.rx =
        { rxBuffer := [], expectedType := d.rx.expectedType,
          expectedLen := d.rx.expectedLen, headerReceived := false } := by
      rw [← hbuf, ← hidle]
    rw [hst]
    have := indicate_feed_header deserializeJson h t lenLo lenHi p hp (c :: cs) []
      d.rx.expectedType d.rx.expectedLen (by simp) hall (by decide)
      (by rw [List.nil_append, List.flatten_cons, hm])
    have h2 := congrArg Prod.snd this
    simpa using h2
  · intro hidle h3
    rw [hrx]
    have := configurable_feed_message deserializeJson h t lenLo lenHi p hp c cs d.rx hidle h3
      hcs hm
    exact congrArg Prod.snd this

end Receive

/-- Witness for C7 as amended. In the middle of a message (header of type 5 declaring 4
bytes, `[1, 2]` buffered) the accumulator is the same after disconnect and connect, and the
chunks `[3] [4]` written next complete the old message in both variants. From an accumulator
that awaits a header with an empty buffer after an earlier message, the new message
`[7, 2, 0, 0xAA, 0xBB]` written as `[7, 2, 0, 0xAA] [0xBB]` after disconnect and connect is
dispatched as itself. -/
theorem disconnect_keeps_accumulator_witness :
    ((onConnect (onDisconnect
        ⟨{ rxBuffer := [1, 2], expectedType := 5, expectedLen := 4, headerReceived := true },
          false⟩)).rx
      = { rxBuffer := [1, 2], expectedType := 5, expectedLen := 4, headerReceived := true }
    ∧ feed (IndicateOnly.onWrite (fun _ => (none : Option Unit)) ⟨true, false⟩)
        (onConnect (onDisconnect
          ⟨{ rxBuffer := [1, 2], expectedType := 5, expectedLen := 4, headerReceived := true },
            false⟩)).rx [[3], [4]]
      = feed (IndicateOnly.onWrite (fun _ => (none : Option Unit)) ⟨true, false⟩)
          { rxBuffer := [1, 2], expectedType := 5, expectedLen := 4, headerReceived := true }
          [[3], [4]]
    ∧ (feed (IndicateOnly.onWrite (fun _ => (none : Option Unit)) ⟨true, false⟩)
          { rxBuffer := [1, 2], expectedType := 5, expectedLen := 4, headerReceived := true }
          [[3], [4]]).2
        = [none, some ⟨5, [1, 2, 3, 4], Dispatch.binaryHandler 5 [1, 2, 3, 4] 4⟩]
    ∧ feed (Configurable.onWrite (fun _ => (none : Option Unit)) ⟨true, false⟩)
        (onConnect (onDisconnect
          ⟨{ rxBuffer := [1, 2], expectedType := 5, expectedLen := 4, headerReceived := true },
            false⟩)).rx [[3], [4]]
      = feed (Configurable.onWrite (fun _ => (none : Option Unit)) ⟨true, false⟩)
          { rxBuffer := [1, 2], expectedType := 5, expectedLen := 4, headerReceived := true }
          [[3], [4]])
    ∧ (([0xAA, 0xBB] : List Byte).length = (2 : Byte).val + 256 * (0 : Byte).val
      ∧ ([7, 2, 0, 0xAA] : List Byte) ++ ([[0xBB]] : List (List Byte)).flatten
          = [7, 2, 0, 0xAA, 0xBB])
    ∧ (feed (IndicateOnly.onWrite (fun _ => (none : Option Unit)) ⟨true, false⟩)
          (onConnect (onDisconnect
            ⟨{ rxBuffer := [], expectedType := 5, expectedLen := 4, headerReceived := false },
              false⟩)).rx
          [[7, 2, 0, 0xAA], [0xBB]]).2
        = List.replicate ([[0xBB]] : List (List Byte)).length none
          ++ [some ⟨7, [0xAA, 0xBB],
            dispatch (fun _ => (none : Option Unit)) ⟨true, false⟩ 7 [0xAA, 0xBB]⟩]
    ∧ (feed (Configurable.onWrite (fun _ => (none : Option Unit)) ⟨true, false⟩)
          (onConnect (onDisconnect
            ⟨{ rxBuffer := [], expectedType := 5, expectedLen := 4, headerReceived := false },
              false⟩)).rx
          [[7, 2, 0, 0xAA], [0xBB]]).2
        = List.replicate ([[0xBB]] : List (List Byte)).length none
          ++ [some ⟨7, [0xAA, 0xBB],
            dispatch (fun _ => (none : Option Unit)) ⟨true, false⟩ 7 [0xAA, 0xBB]⟩] := by
  have mid := disconnect_keeps_accumulator (fun _ => (none : Option Unit)) ⟨true, false⟩
    ⟨{ rxBuffer := [1, 2], expectedType := 5, expectedLen := 4, headerReceived := true },
      false⟩ [[3], [4]] 7 2 0 [0xAA, 0xBB] [7, 2, 0, 0xAA] [[0xBB]]
  have idle := (disconnect_keeps_accumulator (fun _ => (none : Option Unit)) ⟨true, false⟩
    ⟨{ rxBuffer := [], expectedType := 5, expectedLen := 4, headerReceived := false },
      false⟩ [] 7 2 0 [0xAA, 0xBB] [7, 2, 0, 0xAA] [[0xBB]]).2.2.2.2
    (by decide) (by decide) (by decide) (by decide)
  exact ⟨⟨mid.2.1, mid.2.2.1, by decide, mid.2.2.2.1⟩, by decide,
    idle.1 (by decide) (by decide), idle.2 (by decide) (by decide)⟩

/-! ## Transmit abort and throttling -/

/-- The indicate-only loop on an arbitrary link: what is transmitted is a prefix of the full
slice sequence, stops before iteration `k + j` when the peer is found disconnected there, and
stops with iteration `k + j` when its indicate fails. -/
theorem indicate_sendLoop_abort (link : Link) (buffer : List Byte) (m total : Nat) :
    ∀ fuel i k,
      transmitted (IndicateOnly.sendLoop link buffer m total fuel i k)
          <+: slices buffer m total fuel i
      ∧ (∀ j, link.connected (k + j) = false →
          (transmitted (IndicateOnly.sendLoop link buffer m total fuel i k)).length ≤ j)
      ∧ (∀ j, link.indicateOk (k + j) = false →
          (transmitted (IndicateOnly.sendLoop link buffer m total fuel i k)).length ≤ j + 1) := by
  intro fuel
  induction fuel with
  | zero => intro i k; simp [IndicateOnly.sendLoop, slices, transmitted]
  | succ fuel ih =>
    intro i k
    unfold IndicateOnly.sendLoop slices
    by_cases hlt : i < total
    · by_cases hc : link.connected k = true
      · by_cases ha : link.indicateOk k = true
        · obtain ⟨hp, hd, hf⟩ := ih (i + m) (k + 1)
          simp only [transmitted] at hp hd hf
          simp only [hlt, if_true, hc, ha, Bool.not_true, Bool.false_eq_true, if_false,
            transmitted, List.filterMap_cons, TxEvent.frame?, List.length_cons]
          refine ⟨(List.prefix_cons_inj _).2 hp, ?_, ?_⟩
          · intro j hj
            cases j with
            | zero => rw [Nat.add_zero, hc] at hj; exact absurd hj (by decide)
            | succ j =>
              have := hd j (by rw [← hj]; congr 1; omega)
              omega
          · intro j hj
            cases j with
            | zero => rw [Nat.add_zero, ha] at hj; exact absurd hj (by decide)
            | succ j =>
              have := hf j (by rw [← hj]; congr 1; omega)
              omega
        · have ha2 : link.indicateOk k = false := by simpa using ha
          simp only [hlt, if_true, hc, ha2, Bool.not_true, Bool.not_false, Bool.false_eq_true,
            if_false, transmitted, List.filterMap_cons, List.filterMap_nil, TxEvent.frame?,
            List.length_cons, List.length_nil]
          refine ⟨(List.prefix_cons_inj _).2 List.nil_prefix, ?_, ?_⟩
          · intro j hj
            cases j with
            | zero => rw [Nat.add_zero, hc] at hj; exact absurd hj (by decide)
            | succ j => omega
          · intro j _; omega
      · have hc2 : link.connected k = false := by simpa using hc
        simp [hlt, hc2, transmitted]
    · simp [hlt, transmitted]

theorem indicate_sendInternal_multi (pServer : Option Server) (link : Link) (t : Byte)
    (p : List Byte) (hconn : isConnected pServer = true) (hU : 5 ≤ getMTU pServer)
    (hmulti : getMTU pServer - 4 < p.length + 3) :
    IndicateOnly.sendInternal true pServer link t p
      = IndicateOnly.sendLoop link (frameBuffer t p) (getMTU pServer - 4) (p.length + 3)
          (p.length + 3) 0 0 := by
  unfold IndicateOnly.sendInternal
  have hn : ¬ getMTU pServer < 5 := by omega
  have hm : ¬ p.length + 3 ≤ getMTU pServer - 4 := by omega
  simp only [hconn, Bool.not_true, Bool.or_self, Bool.false_eq_true, if_false, hn, hm]

/-- C11. Transmit abort, indicate-only variant: for every multi-frame send and every
behaviour of the link, the frames passed to `indicate` are a prefix of the full frame
sequence (the one of the un-aborted send); if the peer is found disconnected before frame
`k`, frames `k` and later are not transmitted, and if `indicate` reports failure on frame
`k`, no frame after `k` is transmitted. -/
theorem transmit_abort_indicate_only (pServer : Option Server) (link : Link) (t : Byte)
    (p : List Byte) (hconn : isConnected pServer = true) (hU : 5 ≤ getMTU pServer)
    (hmulti : getMTU pServer - 4 < p.length + 3) :
    transmitted (IndicateOnly.sendInternal true pServer link t p)
        <+: transmitted (IndicateOnly.sendInternal true pServer Link.steady t p)
    ∧ (∀ k, link.connected k = false →
        (transmitted (IndicateOnly.sendInternal true pServer link t p)).length ≤ k)
    ∧ (∀ k, link.indicateOk k = false →
        (transmitted (IndicateOnly.sendInternal true pServer link t p)).length ≤ k + 1) := by
  rw [indicate_transmitted pServer Link.steady t p hconn hU (fun _ => rfl) (fun _ => rfl),
    indicate_sendInternal_multi pServer link t p hconn hU hmulti]
  obtain ⟨hp, hd, hf⟩ := indicate_sendLoop_abort link (frameBuffer t p) (getMTU pServer - 4)
    (p.length + 3) (p.length + 3) 0 0
  refine ⟨hp, ?_, ?_⟩
  · intro k hk
    exact hd k (by rw [Nat.zero_add]; exact hk)
  · intro k hk
    exact hf k (by rw [Nat.zero_add]; exact hk)

/-- Witness for C11: type 5, 4 payload bytes, unit size 7 (frames of 3, 3, 1 bytes), on a
link where the indicate of frame 1 fails: frames 0 and 1 are passed to `indicate`, frame 2 is
not. -/
theorem transmit_abort_indicate_only_witness :
    (isConnected (some ⟨1, [7]⟩) = true ∧ 5 ≤ getMTU (some ⟨1, [7]⟩)
      ∧ getMTU (some ⟨1, [7]⟩) - 4 < ([10, 20, 30, 40] : List Byte).length + 3)
    ∧ transmitted (IndicateOnly.sendInternal true (some ⟨1, [7]⟩)
        ⟨fun _ => true, fun k => decide (k ≠ 1)⟩ 5 [10, 20, 30, 40])
        = [[5, 4, 0], [10, 20, 30]]
    ∧ transmitted (IndicateOnly.sendInternal true (some ⟨1, [7]⟩) Link.steady 5
        [10, 20, 30, 40]) = [[5, 4, 0], [10, 20, 30], [40]]
    ∧ (transmitted (IndicateOnly.sendInternal true (some ⟨1, [7]⟩)
        ⟨fun _ => true, fun k => decide (k ≠ 1)⟩ 5 [10, 20, 30, 40])).length ≤ 1 + 1 :=
  ⟨by decide, by decide, by decide,
    (transmit_abort_indicate_only (some ⟨1, [7]⟩) ⟨fun _ => true, fun k => decide (k ≠ 1)⟩ 5
      [10, 20, 30, 40] (by decide) (by decide) (by decide)).2.2 1 (by decide)⟩

/-- C12, the code at the failing input: a confirmed-mode send of type 5 with 20 payload
bytes at unit size 23 (frames of 19 and 4 bytes). The configurable loop reads neither
`isConnected()` nor the value returned by `indicate()`, so its trace does not depend on the
link: both frames are passed to `indicate`. On the same message the indicate-only loop stops
after frame 0 when the indicate of frame 0 fails, and sends nothing when the peer is found
disconnected. -/
theorem configurable_send_never_aborts :
    Configurable.sendInternal true (some ⟨1, [23]⟩) true 5 (List.replicate 20 0xAB)
      = [TxEvent.indicate (5 :: 20 :: 0 :: List.replicate 16 0xAB),
          TxEvent.indicate (List.replicate 4 0xAB)]
    ∧ IndicateOnly.sendInternal true (some ⟨1, [23]⟩) ⟨fun _ => true, fun _ => false⟩ 5
        (List.replicate 20 0xAB) = [TxEvent.indicate (5 :: 20 :: 0 :: List.replicate 16 0xAB)]
    ∧ IndicateOnly.sendInternal true (some ⟨1, [23]⟩) ⟨fun _ => false, fun _ => true⟩ 5
        (List.replicate 20 0xAB) = [] := by
  decide

/-- The configurable loop in notify mode: each frame is followed by the throttling delay
when the message takes more than one frame, by nothing otherwise. -/
theorem configurable_sendLoop_notify (buffer : List Byte) (m total : Nat) :
    ∀ fuel i, Configurable.sendLoop false buffer m total fuel i
      = (slices buffer m total fuel i).flatMap (fun f =>
          TxEvent.notify f ::
            (if total > m then [TxEvent.delay (if (total + m - 1) / m > 10 then 10 else 5)]
             else [])) := by
  intro fuel
  induction fuel with
  | zero => intro i; simp [Configurable.sendLoop, slices]
  | succ fuel ih =>
    intro i
    unfold Configurable.sendLoop slices
    by_cases hlt : i < total
    · simp only [hlt, if_true, Bool.false_eq_true, if_false, List.flatMap_cons, ih (i + m)]
    · simp only [hlt, if_false, List.flatMap_nil]

theorem configurable_sendLoop_indicate (buffer : List Byte) (m total : Nat) :
    ∀ fuel i, Configurable.sendLoop true buffer m total fuel i
      = (slices buffer m total fuel i).map TxEvent.indicate := by
  intro fuel
  induction fuel with
  | zero => intro i; simp [Configurable.sendLoop, slices]
  | succ fuel ih =>
    intro i
    unfold Configurable.sendLoop slices
    by_cases hlt : i < total
    · simp only [hlt, if_true, List.map_cons, ih (i + m), List.singleton_append]
    · simp only [hlt, if_false, List.map_nil]

theorem delays_map_indicate (fs : List (List Byte)) :
    delays (fs.map TxEvent.indicate) = [] := by
  induction fs with
  | nil => rfl
  | cons f fs ih =>
    simp only [delays] at ih
    simp [delays, ih]

theorem delays_map_notify (fs : List (List Byte)) :
    delays (fs.flatMap (fun f => [TxEvent.notify f])) = [] := by
  induction fs with
  | nil => rfl
  | cons f fs ih =>
    simp only [delays] at ih
    simp [delays, ih]

theorem configurable_sendInternal_loop (pServer : Option Server) (useIndication : Bool)
    (t : Byte) (p : List Byte) (hconn : isConnected pServer = true)
    (hU : 5 ≤ getMTU pServer) :
    Configurable.sendInternal true pServer useIndication t p
      = Configurable.sendLoop useIndication (frameBuffer t p) (getMTU pServer - 4)
          (p.length + 3) (p.length + 3) 0 := by
  unfold Configurable.sendInternal
  have hn : ¬ getMTU pServer < 5 := by omega
  simp only [hconn, Bool.not_true, Bool.or_self, Bool.false_eq_true, if_false, hn]

/-- C13. Throttling in the configurable variant: in confirmed mode no delay is ever
inserted; in notify mode a message whose framed length `L + 3` fits in one frame
(`L + 3 ≤ U - 4`) incurs no delay, while a multi-frame message has `n ≥ 2` frames,
`n = ceil((L+3)/(U-4))`, each followed by one delay of 10 ms when `n > 10` and of 5 ms
otherwise, a duration that depends on `n` alone and does not decrease with `n`. -/
theorem throttling_configurable (pChar : Bool) (pServer : Option Server) (t : Byte)
    (p : List Byte) (U : Nat) (hmtu : getMTU pServer = U) :
    delays (Configurable.sendInternal pChar pServer true t p) = []
    ∧ (p.length + 3 ≤ U - 4 →
        delays (Configurable.sendInternal pChar pServer false t p) = [])
    ∧ (isConnected pServer = true → 5 ≤ U → U - 4 < p.length + 3 →
        2 ≤ ⌈((p.length + 3 : ℕ) : ℚ) / ((U - 4 : ℕ) : ℚ)⌉₊
        ∧ Configurable.sendInternal true pServer false t p
          = (transmitted (Configurable.sendInternal true pServer false t p)).flatMap
              (fun f => [TxEvent.notify f,
                TxEvent.delay
                  (if ⌈((p.length + 3 : ℕ) : ℚ) / ((U - 4 : ℕ) : ℚ)⌉₊ > 10 then 10 else 5)]))
    ∧ (∀ a b : Nat, a ≤ b → (if a > 10 then 10 else 5) ≤ (if b > 10 then 10 else 5)) := by
  subst hmtu
  refine ⟨?_, ?_, ?_, ?_⟩
  · unfold Configurable.sendInternal
    split
    · rfl
    · simp only
      split
      · rfl
      · simp only [configurable_sendLoop_indicate, delays_map_indicate]
  · intro hfit
    unfold Configurable.sendInternal
    split
    · rfl
    · simp only
      split
      · rfl
      · have hno : ¬ p.length + 3 > getMTU pServer - 4 := by omega
        simp only [configurable_sendLoop_notify, hno, if_false, delays_map_notify]
  · intro hconn hU hmulti
    have hm : 1 ≤ getMTU pServer - 4 := by omega
    rw [ceil_div_eq _ _ hm, configurable_transmitted pServer false t p hconn hU,
      configurable_sendInternal_loop pServer false t p hconn hU, configurable_sendLoop_notify]
    constructor
    · rw [Nat.le_div_iff_mul_le (by omega)]
      omega
    · have hyes : p.length + 3 > getMTU pServer - 4 := hmulti
      simp only [hyes, if_true]
  · intro a b hab
    split <;> split <;> omega

/-- Witness for C13: type 5, 4 payload bytes, unit size 7 in notify mode: three frames, each
followed by a delay of 5 ms. -/
theorem throttling_configurable_witness :
    (getMTU (some ⟨1, [7]⟩) = 7 ∧ isConnected (some ⟨1, [7]⟩) = true ∧ 5 ≤ 7
      ∧ 7 - 4 < ([10, 20, 30, 40] : List Byte).length + 3)
    ∧ Configurable.sendInternal true (some ⟨1, [7]⟩) false 5 [10, 20, 30, 40]
        = [TxEvent.notify [5, 4, 0], TxEvent.delay 5, TxEvent.notify [10, 20, 30],
            TxEvent.delay 5, TxEvent.notify [40], TxEvent.delay 5]
    ∧ 2 ≤ ⌈((([10, 20, 30, 40] : List Byte).length + 3 : ℕ) : ℚ) / ((7 - 4 : ℕ) : ℚ)⌉₊ :=
  ⟨by decide, by decide,
    ((throttling_configurable true (some ⟨1, [7]⟩) 5 [10, 20, 30, 40] 7 (by decide)).2.2.1
      (by decide) (by decide) (by decide)).1⟩

/-- C14. Not connected: for every type and payload, when the characteristic has not been
created or no peer is connected, `sendInternal` performs no transmit call and no delay, in
both variants. -/
theorem not_connected (pChar : Bool) (pServer : Option Server) (link : Link)
    (useIndication : Bool) (t : Byte) (p : List Byte)
    (hno : pChar = false ∨ isConnected pServer = false) :
    IndicateOnly.sendInternal pChar pServer link t p = []
    ∧ Configurable.sendInternal pChar pServer useIndication t p = [] := by
  have hg : (!pChar || !isConnected pServer) = true := by
    rcases hno with hp | hc
    · simp [hp]
    · simp [hc]
  constructor
  · unfold IndicateOnly.sendInternal
    rw [if_pos hg]
  · unfold Configurable.sendInternal
    rw [if_pos hg]

/-- Witness for C14: a server with no connected peer. -/
theorem not_connected_witness :
    isConnected (some ⟨0, []⟩) = false
    ∧ IndicateOnly.sendInternal true (some ⟨0, []⟩) Link.steady 5 [1, 2] = []
    ∧ Configurable.sendInternal true (some ⟨0, []⟩) false 5 [1, 2] = [] :=
  ⟨by decide,
    not_connected true (some ⟨0, []⟩) Link.steady false 5 [1, 2] (Or.inr (by decide))⟩

section Receive

variable {Doc : Type} (deserializeJson : List Byte → Option Doc) (h : Handlers)

/-- C15. Zero-length chunk: in every reassembler state, an `onWrite` event carrying 0 bytes
leaves `headerReceived`, `expectedType`, `expectedLength` and the buffer unchanged and
invokes no handler, in both variants. -/
theorem zero_length_chunk (s : RxState) :
    IndicateOnly.onWrite deserializeJson h s [] = (s, none)
    ∧ Configurable.onWrite deserializeJson h s [] = (s, none) :=
  ⟨rfl, rfl⟩

/-- C17. Truncated header, configurable variant: in every state with
`headerReceived = false`, an `onWrite` event carrying 1 or 2 bytes leaves the whole
accumulator unchanged and invokes no handler; the bytes of the chunk are not buffered, so
whatever follows is processed as if the chunk had not been written. -/
theorem truncated_header_configurable (s : RxState) (data : List Byte)
    (rest : List (List Byte)) (hs : s.headerReceived = false)
    (hlen : data.length = 1 ∨ data.length = 2) :
    Configurable.onWrite deserializeJson h s data = (s, none)
    ∧ feed (Configurable.onWrite deserializeJson h) s (data :: rest)
      = ((feed (Configurable.onWrite deserializeJson h) s rest).1,
          none :: (feed (Configurable.onWrite deserializeJson h) s rest).2) := by
  have hstep : Configurable.onWrite deserializeJson h s data = (s, none) := by
    have h0 : data.length ≠ 0 := by omega
    have h3 : ¬ data.length ≥ 3 := by omega
    unfold Configurable.onWrite
    simp only [h0, if_false, hs, Bool.not_false, if_true, h3]
  refine ⟨hstep, ?_⟩
  simp only [feed, hstep]

end Receive

/-- Witness for C17: the message `[7, 1, 0, 9]` written as `[7, 1]` then `[0, 9]` from the
initial state: the first chunk changes nothing and no message is reconstructed. -/
theorem truncated_header_configurable_witness :
    (RxState.initial.headerReceived = false ∧ ([7, 1] : List Byte).length = 2)
    ∧ Configurable.onWrite (fun _ => (none : Option Unit)) ⟨true, false⟩ RxState.initial
        [7, 1] = (RxState.initial, none)
    ∧ (feed (Configurable.onWrite (fun _ => (none : Option Unit)) ⟨true, false⟩)
        RxState.initial [[7, 1], [0, 9]]).2 = [none, none] :=
  ⟨by decide,
    (truncated_header_configurable (fun _ => (none : Option Unit)) ⟨true, false⟩
      RxState.initial [7, 1] [[0, 9]] (by decide) (Or.inr (by decide))).1,
    by decide⟩

/-- C18. Implicit length truncation: for every payload length `len`, the two length bytes
written by `sendInternal` decode to `len mod 65536`, which is `len` exactly when
`len ≤ 65535`; for `len ≥ 65536` the header declares fewer bytes than `len`, and an
un-aborted send still frames and transmits all `len + 3` bytes, in both variants. -/
theorem implicit_length_truncation (pServer : Option Server) (link : Link)
    (useIndication : Bool) (t : Byte) (p : List Byte)
    (hconn : isConnected pServer = true) (hU : 5 ≤ getMTU pServer)
    (hc : ∀ k, link.connected k = true) (ha : ∀ k, link.indicateOk k = true) :
    ∃ lo hi : Byte,
      frameBuffer t p = t :: lo :: hi :: p
      ∧ lo.val ||| (hi.val <<< 8) = p.length % 65536
      ∧ (p.length % 65536 = p.length ↔ p.length ≤ 65535)
      ∧ (65536 ≤ p.length → p.length % 65536 < p.length)
      ∧ (transmitted (IndicateOnly.sendInternal true pServer link t p)).flatten
          = frameBuffer t p
      ∧ (transmitted (Configurable.sendInternal true pServer useIndication t p)).flatten
          = frameBuffer t p
      ∧ (frameBuffer t p).length = p.length + 3 := by
  refine ⟨toByte (p.length &&& 0xFF), toByte ((p.length >>> 8) &&& 0xFF), rfl, ?_, ?_, ?_,
    ?_, ?_, frameBuffer_length t p⟩
  · rw [lor_shl8, header_lo, header_hi]
    omega
  · constructor
    · intro he
      have := Nat.mod_lt p.length (show 0 < 65536 by decide)
      omega
    · intro hle
      exact Nat.mod_eq_of_lt (by omega)
  · intro hge
    have := Nat.mod_lt p.length (show 0 < 65536 by decide)
    omega
  · rw [indicate_transmitted pServer link t p hconn hU hc ha]
    exact (slices_message t p (getMTU pServer - 4) (by omega)).1
  · rw [configurable_transmitted pServer useIndication t p hconn hU]
    exact (slices_message t p (getMTU pServer - 4) (by omega)).1

/-- Witness for C18: a payload of 65537 bytes at unit size 23; the header declares 1 byte. -/
theorem implicit_length_truncation_witness :
    (isConnected (some ⟨1, [23]⟩) = true ∧ 5 ≤ getMTU (some ⟨1, [23]⟩))
    ∧ (List.replicate 65537 (0 : Byte)).length % 65536 = 1
    ∧ ∃ lo hi : Byte,
      frameBuffer 5 (List.replicate 65537 0) = 5 :: lo :: hi :: List.replicate 65537 0
      ∧ lo.val ||| (hi.val <<< 8) = (List.replicate 65537 (0 : Byte)).length % 65536
      ∧ ((List.replicate 65537 (0 : Byte)).length % 65536
          = (List.replicate 65537 (0 : Byte)).length
        ↔ (List.replicate 65537 (0 : Byte)).length ≤ 65535)
      ∧ (65536 ≤ (List.replicate 65537 (0 : Byte)).length →
          (List.replicate 65537 (0 : Byte)).length % 65536
            < (List.replicate 65537 (0 : Byte)).length)
      ∧ (transmitted (IndicateOnly.sendInternal true (some ⟨1, [23]⟩) Link.steady 5
          (List.replicate 65537 0))).flatten = frameBuffer 5 (List.replicate 65537 0)
      ∧ (transmitted (Configurable.sendInternal true (some ⟨1, [23]⟩) false 5
          (List.replicate 65537 0))).flatten = frameBuffer 5 (List.replicate 65537 0)
      ∧ (frameBuffer 5 (List.replicate 65537 0)).length
          = (List.replicate 65537 (0 : Byte)).length + 3 :=
  ⟨by decide, by rw [List.length_replicate],
    implicit_length_truncation (some ⟨1, [23]⟩) Link.steady false 5 (List.replicate 65537 0)
      (by decide) (by decide) (fun _ => rfl) (fun _ => rfl)⟩

section Receive

variable {Doc : Type} (deserializeJson : List Byte → Option Doc) (h : Handlers)

/-! ## Invariants of the accumulators -/

/-- After the completion check, an accumulator that holds a header has fewer bytes than the
header declares. -/
theorem checkComplete_after (s : RxState) :
    (checkComplete deserializeJson h s).1.expectedLen = s.expectedLen
    ∧ ((checkComplete deserializeJson h s).1.headerReceived = true →
        (checkComplete deserializeJson h s).1.rxBuffer.length < s.expectedLen)
    ∧ ((checkComplete deserializeJson h s).1.headerReceived = false →
        s.headerReceived = true ∨ (checkComplete deserializeJson h s).1 = s) := by
  unfold checkComplete
  split
  · rename_i hc
    simp only [Bool.and_eq_true, decide_eq_true_eq] at hc
    exact ⟨rfl, fun hf => absurd hf (by simp), fun _ => Or.inl hc.2⟩
  · rename_i hc
    simp only [Bool.and_eq_true, decide_eq_true_eq, not_and] at hc
    dsimp only
    refine ⟨rfl, ?_, fun _ => Or.inr rfl⟩
    intro ht
    by_contra hge
    exact hc (by omega) ht

theorem indicate_onWrite_inv (s : RxState) (data : List Byte)
    (hinv : (s.headerReceived = false → s.rxBuffer.length < 3)
      ∧ (s.headerReceived = true → s.rxBuffer.length < s.expectedLen)) :
    ((IndicateOnly.onWrite deserializeJson h s data).1.headerReceived = false →
        (IndicateOnly.onWrite deserializeJson h s data).1.rxBuffer.length < 3)
    ∧ ((IndicateOnly.onWrite deserializeJson h s data).1.headerReceived = true →
        (IndicateOnly.onWrite deserializeJson h s data).1.rxBuffer.length
          < (IndicateOnly.onWrite deserializeJson h s data).1.expectedLen) := by
  have hreset : ∀ s0 : RxState, s0.headerReceived = true →
      ((checkComplete deserializeJson h s0).1.headerReceived = false →
        (checkComplete deserializeJson h s0).1.rxBuffer.length < 3)
      ∧ ((checkComplete deserializeJson h s0).1.headerReceived = true →
        (checkComplete deserializeJson h s0).1.rxBuffer.length
          < (checkComplete deserializeJson h s0).1.expectedLen) := by
    intro s0 h0
    unfold checkComplete
    split
    · exact ⟨fun _ => by simp, fun hf => absurd hf (by simp)⟩
    · rename_i hc
      simp only [Bool.and_eq_true, decide_eq_true_eq, not_and] at hc
      dsimp only
      refine ⟨fun hf => absurd h0 (by simp [hf]), fun _ => ?_⟩
      by_contra hge
      exact hc (by omega) h0
  unfold IndicateOnly.onWrite
  split
  · exact hinv
  · split
    · simp only
      split
      · exact hreset _ rfl
      · rename_i hhr h3
        have hf : s.headerReceived = false := by simpa using hhr
        refine ⟨fun _ => by simpa using h3, fun ht => ?_⟩
        simp only [hf] at ht
        exact absurd ht (by simp)
    · rename_i hhr
      have ht : s.headerReceived = true := by simpa using hhr
      exact hreset _ ht

/-- C20. Between-event invariant of the indicate-only reassembler: in every state reached
from the initial state by any sequence of `onWrite` events, the buffer holds fewer than 3
bytes when `headerReceived` is false, and strictly fewer than `expectedLength` bytes when
`headerReceived` is true. -/
theorem between_event_invariant_indicate_only (chunks : List (List Byte)) :
    ((feed (IndicateOnly.onWrite deserializeJson h) RxState.initial chunks).1.headerReceived
        = false →
      (feed (IndicateOnly.onWrite deserializeJson h) RxState.initial chunks).1.rxBuffer.length
        < 3)
    ∧ ((feed (IndicateOnly.onWrite deserializeJson h) RxState.initial chunks).1.headerReceived
        = true →
      (feed (IndicateOnly.onWrite deserializeJson h) RxState.initial chunks).1.rxBuffer.length
        < (feed (IndicateOnly.onWrite deserializeJson h) RxState.initial
            chunks).1.expectedLen) := by
  have gen : ∀ (cs : List (List Byte)) (s : RxState),
      ((s.headerReceived = false → s.rxBuffer.length < 3)
        ∧ (s.headerReceived = true → s.rxBuffer.length < s.expectedLen)) →
      (((feed (IndicateOnly.onWrite deserializeJson h) s cs).1.headerReceived = false →
          (feed (IndicateOnly.onWrite deserializeJson h) s cs).1.rxBuffer.length < 3)
        ∧ ((feed (IndicateOnly.onWrite deserializeJson h) s cs).1.headerReceived = true →
          (feed (IndicateOnly.onWrite deserializeJson h) s cs).1.rxBuffer.length
            < (feed (IndicateOnly.onWrite deserializeJson h) s cs).1.expectedLen)) := by
    intro cs
    induction cs with
    | nil => intro s hs; exact hs
    | cons c cs ih =>
      intro s hs
      exact ih _ (indicate_onWrite_inv deserializeJson h s c hs)
  exact gen chunks RxState.initial ⟨fun _ => by decide, fun hf => absurd hf (by decide)⟩

end Receive

/-- Witness for C20: after the chunk `[5, 4, 0, 1, 2]` a header is held and 2 of the 4
declared bytes are buffered. -/
theorem between_event_invariant_indicate_only_witness :
    (feed (IndicateOnly.onWrite (fun _ => (none : Option Unit)) ⟨true, false⟩)
        RxState.initial [[5, 4, 0, 1, 2]]).1.headerReceived = true
    ∧ (feed (IndicateOnly.onWrite (fun _ => (none : Option Unit)) ⟨true, false⟩)
        RxState.initial [[5, 4, 0, 1, 2]]).1.rxBuffer.length
      < (feed (IndicateOnly.onWrite (fun _ => (none : Option Unit)) ⟨true, false⟩)
          RxState.initial [[5, 4, 0, 1, 2]]).1.expectedLen :=
  ⟨by decide,
    (between_event_invariant_indicate_only (fun _ => (none : Option Unit)) ⟨true, false⟩
      [[5, 4, 0, 1, 2]]).2 (by decide)⟩

theorem sizeSub_bytes (a b : Nat) (ha : a < 65536) (hab : b ≤ a) : sizeSub a b = a - b :=
  sizeSub_of_le a b hab (by unfold SIZE_RANGE; omega)

/-- The accumulator with which step 2 of the configurable `onWrite` is entered holds a
header, declares at most 65535 bytes and has buffered no more than it declares. -/
theorem configurable_headerStep_inv (s s1 : RxState) (data : List Byte) (offset : Nat)
    (hinv : s.expectedLen < 65536 ∧ (s.headerReceived = true → s.rxBuffer.length < s.expectedLen))
    (hstep : Configurable.headerStep s data = some (s1, offset)) :
    s1.headerReceived = true ∧ s1.expectedLen < 65536 ∧ s1.rxBuffer.length ≤ s1.expectedLen := by
  unfold Configurable.headerStep at hstep
  split at hstep
  · split at hstep
    · simp only [Option.some.injEq, Prod.mk.injEq] at hstep
      obtain ⟨hs1, _⟩ := hstep
      subst hs1
      refine ⟨rfl, ?_, Nat.zero_le _⟩
      have h1 := (data.getD 1 0).isLt
      have h2 := (data.getD 2 0).isLt
      show (data.getD 1 0).val ||| ((data.getD 2 0).val <<< 8) < 65536
      rw [lor_shl8]
      omega
    · simp at hstep
  · rename_i hhr
    have ht : s.headerReceived = true := by simpa using hhr
    simp only [Option.some.injEq, Prod.mk.injEq] at hstep
    obtain ⟨hs1, _⟩ := hstep
    subst hs1
    exact ⟨ht, hinv.1, Nat.le_of_lt (hinv.2 ht)⟩

section Receive

variable {Doc : Type} (deserializeJson : List Byte → Option Doc) (h : Handlers)

/-- The configurable `onWrite` written with its step 1 named. -/
theorem configurable_onWrite_headerStep (s : RxState) (data : List Byte) :
    Configurable.onWrite deserializeJson h s data
      = if data.length = 0 then (s, none)
        else
          match Configurable.headerStep s data with
          | none => (s, none)
          | some (s1, offset) =>
            checkComplete deserializeJson h
              (if min (data.length - offset) (sizeSub s1.expectedLen s1.rxBuffer.length) > 0 then
                { s1 with
                  rxBuffer := s1.rxBuffer ++ List.take
                    (min (data.length - offset) (sizeSub s1.expectedLen s1.rxBuffer.length))
                    (data.drop offset) }
              else s1) :=
  rfl

theorem configurable_onWrite_inv (s : RxState) (data : List Byte)
    (hinv : s.expectedLen < 65536
      ∧ (s.headerReceived = true → s.rxBuffer.length < s.expectedLen)) :
    (Configurable.onWrite deserializeJson h s data).1.expectedLen < 65536
    ∧ ((Configurable.onWrite deserializeJson h s data).1.headerReceived = true →
        (Configurable.onWrite deserializeJson h s data).1.rxBuffer.length
          < (Configurable.onWrite deserializeJson h s data).1.expectedLen) := by
  rw [configurable_onWrite_headerStep]
  split
  · exact hinv
  · cases hstep : Configurable.headerStep s data with
    | none => exact hinv
    | some r =>
      obtain ⟨s1, offset⟩ := r
      obtain ⟨_, hr, hle⟩ := configurable_headerStep_inv s s1 data offset hinv hstep
      dsimp only
      obtain ⟨he, ht, _⟩ := checkComplete_after deserializeJson h
        (if min (data.length - offset) (sizeSub s1.expectedLen s1.rxBuffer.length) > 0 then
          { s1 with
            rxBuffer := s1.rxBuffer ++ List.take
              (min (data.length - offset) (sizeSub s1.expectedLen s1.rxBuffer.length))
              (data.drop offset) }
        else s1)
      have hexp : (if min (data.length - offset)
            (sizeSub s1.expectedLen s1.rxBuffer.length) > 0 then
          { s1 with
            rxBuffer := s1.rxBuffer ++ List.take
              (min (data.length - offset) (sizeSub s1.expectedLen s1.rxBuffer.length))
              (data.drop offset) }
        else s1).expectedLen = s1.expectedLen := by
        split <;> rfl
      rw [hexp] at he ht
      rw [he]
      exact ⟨hr, ht⟩

theorem configurable_feed_inv :
    ∀ (cs : List (List Byte)) (s : RxState),
      (s.expectedLen < 65536 ∧ (s.headerReceived = true → s.rxBuffer.length < s.expectedLen)) →
      ((feed (Configurable.onWrite deserializeJson h) s cs).1.expectedLen < 65536
        ∧ ((feed (Configurable.onWrite deserializeJson h) s cs).1.headerReceived = true →
          (feed (Configurable.onWrite deserializeJson h) s cs).1.rxBuffer.length
            < (feed (Configurable.onWrite deserializeJson h) s cs).1.expectedLen)) := by
  intro cs
  induction cs with
  | nil => intro s hs; exact hs
  | cons c cs ih =>
    intro s hs
    exact ih _ (configurable_onWrite_inv deserializeJson h s c hs)

/-- C16. Accumulator invariant, configurable variant: in every state reached from the
initial state by any sequence of `onWrite` events, `buffer.size() ≤ expectedLength` holds
whenever `headerReceived` is true; and in the next `onWrite` event, at the point where
`remainingToRead = expectedLength - buffer.size()` is computed, `headerReceived` is true and
`buffer.size() ≤ expectedLength`, so that the unsigned subtraction yields the true
difference and does not wrap around. -/
theorem accumulator_invariant_configurable (chunks : List (List Byte)) (data : List Byte) :
    ((feed (Configurable.onWrite deserializeJson h) RxState.initial chunks).1.headerReceived
        = true →
      (feed (Configurable.onWrite deserializeJson h) RxState.initial chunks).1.rxBuffer.length
        ≤ (feed (Configurable.onWrite deserializeJson h) RxState.initial
            chunks).1.expectedLen)
    ∧ (∀ (s1 : RxState) (offset : Nat),
        Configurable.headerStep
            (feed (Configurable.onWrite deserializeJson h) RxState.initial chunks).1 data
          = some (s1, offset) →
        s1.headerReceived = true ∧ s1.rxBuffer.length ≤ s1.expectedLen
        ∧ sizeSub s1.expectedLen s1.rxBuffer.length = s1.expectedLen - s1.rxBuffer.length) := by
  have hinv := configurable_feed_inv deserializeJson h chunks RxState.initial
    ⟨by decide, fun hf => absurd hf (by decide)⟩
  refine ⟨fun ht => Nat.le_of_lt (hinv.2 ht), ?_⟩
  intro s1 offset hstep
  obtain ⟨ht, hr, hle⟩ := configurable_headerStep_inv _ s1 data offset hinv hstep
  exact ⟨ht, hle, sizeSub_bytes _ _ hr hle⟩

end Receive

/-- Witness for C16: after the chunk `[5, 4, 0, 1, 2]`, at the subtraction of the event
that writes `[3]`: 2 bytes buffered of 4 declared, `remainingToRead = 2`. -/
theorem accumulator_invariant_configurable_witness :
    Configurable.headerStep
        (feed (Configurable.onWrite (fun _ => (none : Option Unit)) ⟨true, false⟩)
          RxState.initial [[5, 4, 0, 1, 2]]).1 [3]
      = some ({ rxBuffer := [1, 2], expectedType := 5, expectedLen := 4,
                headerReceived := true }, 0)
    ∧ sizeSub 4 ([1, 2] : List Byte).length = 4 - ([1, 2] : List Byte).length :=
  ⟨by decide,
    ((accumulator_invariant_configurable (fun _ => (none : Option Unit)) ⟨true, false⟩
      [[5, 4, 0, 1, 2]] [3]).2
      { rxBuffer := [1, 2], expectedType := 5, expectedLen := 4, headerReceived := true } 0
      (by decide)).2.2⟩

theorem wellFormed_iff (m : FramedMessage) (hw : m.wellFormed = true) :
    m.payload.length = m.lenLo.val + 256 * m.lenHi.val
    ∧ 3 ≤ m.first.length
    ∧ (∀ c ∈ m.rest, c ≠ [])
    ∧ m.first ++ m.rest.flatten = m.type :: m.lenLo :: m.lenHi :: m.payload := by
  unfold FramedMessage.wellFormed at hw
  simp only [Bool.and_eq_true, decide_eq_true_eq, List.all_eq_true, Bool.not_eq_true',
    List.isEmpty_eq_false] at hw
  obtain ⟨⟨⟨hp, h3⟩, hr⟩, hm⟩ := hw
  exact ⟨hp, h3, hr, hm⟩

section Receive

variable {Doc : Type} (deserializeJson : List Byte → Option Doc) (h : Handlers)

theorem feed_append (step : RxState → List Byte → RxState × Option (Completed Doc)) :
    ∀ (xs ys : List (List Byte)) (s : RxState),
      feed step s (xs ++ ys)
        = ((feed step (feed step s xs).1 ys).1,
            (feed step s xs).2 ++ (feed step (feed step s xs).1 ys).2) := by
  intro xs
  induction xs with
  | nil => intro ys s; rfl
  | cons x xs ih =>
    intro ys s
    rw [List.cons_append]
    simp only [feed]
    rw [ih]
    rfl

/-- One well-formed message through both reassemblers, from an idle accumulator. -/
theorem feed_wellFormed (m : FramedMessage) (hw : m.wellFormed = true) (s : RxState)
    (hidle : s.headerReceived = false) (hbuf : s.rxBuffer = []) :
    feed (IndicateOnly.onWrite deserializeJson h) s m.chunks
      = ({ rxBuffer := [], expectedType := m.type, expectedLen := m.payload.length,
           headerReceived := false },
          List.replicate m.rest.length none
            ++ [some ⟨m.type, m.payload, dispatch deserializeJson h m.type m.payload⟩])
    ∧ feed (Configurable.onWrite deserializeJson h) s m.chunks
      = ({ rxBuffer := [], expectedType := m.type, expectedLen := m.payload.length,
           headerReceived := false },
          List.replicate m.rest.length none
            ++ [some ⟨m.type, m.payload, dispatch deserializeJson h m.type m.payload⟩]) := by
  obtain ⟨hp, h3, hr, hm⟩ := wellFormed_iff m hw
  have hfirst : m.first ≠ [] := by
    intro h0; rw [h0] at h3; simp at h3
  have hall : ∀ x ∈ m.first :: m.rest, x ≠ [] := by
    intro x hx
    rcases List.mem_cons.1 hx with rfl | hx
    · exact hfirst
    · exact hr x hx
  have hst : s =
      { rxBuffer := [], expectedType := s.expectedType,
        expectedLen := s.expectedLen, headerReceived := false } := by
    rw [← hbuf, ← hidle]
  constructor
  · have := indicate_feed_header deserializeJson h m.type m.lenLo m.lenHi m.payload hp
      (m.first :: m.rest) [] s.expectedType s.expectedLen (by simp) hall (by decide)
      (by rw [List.nil_append, List.flatten_cons, hm])
    rw [← hst] at this
    simpa [FramedMessage.chunks] using this
  · exact configurable_feed_message deserializeJson h m.type m.lenLo m.lenHi m.payload hp
      m.first m.rest s hidle h3 hr hm

theorem feed_wellFormed_list :
    ∀ (msgs : List FramedMessage), (∀ m ∈ msgs, m.wellFormed = true) →
      ∀ s : RxState, s.headerReceived = false → s.rxBuffer = [] →
        feed (IndicateOnly.onWrite deserializeJson h) s
            (msgs.map FramedMessage.chunks).flatten
          = feed (Configurable.onWrite deserializeJson h) s
              (msgs.map FramedMessage.chunks).flatten
        ∧ (feed (IndicateOnly.onWrite deserializeJson h) s
            (msgs.map FramedMessage.chunks).flatten).2
          = (msgs.map (fun m => List.replicate m.rest.length none
              ++ [some ⟨m.type, m.payload,
                    dispatch deserializeJson h m.type m.payload⟩])).flatten
        ∧ (feed (IndicateOnly.onWrite deserializeJson h) s
            (msgs.map FramedMessage.chunks).flatten).1.headerReceived = false
        ∧ (feed (IndicateOnly.onWrite deserializeJson h) s
            (msgs.map FramedMessage.chunks).flatten).1.rxBuffer = [] := by
  intro msgs
  induction msgs with
  | nil => intro _ s hidle hbuf; exact ⟨rfl, rfl, hidle, hbuf⟩
  | cons m ms ih =>
    intro hw s hidle hbuf
    obtain ⟨hi, hc⟩ := feed_wellFormed deserializeJson h m (hw m (List.mem_cons_self _ _))
      s hidle hbuf
    obtain ⟨heq, hout, hfin, hemp⟩ := ih (fun x hx => hw x (List.mem_cons_of_mem _ hx))
      { rxBuffer := [], expectedType := m.type, expectedLen := m.payload.length,
        headerReceived := false } rfl rfl
    simp only [List.map_cons, List.flatten_cons, feed_append, hi, hc]
    exact ⟨by rw [heq], by rw [hout], hfin, hemp⟩

/-- C19. Equivalence of the two reassemblers on well-formed input: for every sequence of
messages, each `[t, lenLo, lenHi] ++ p` with `length(p) = lenLo + 256 * lenHi`, cut into
non-empty chunks of which the first holds at least 3 bytes and none spans two messages, the
`onWrite` of `NimBLE-DataPipe.cpp` and the `onWrite` of `NimBLE_DataPipe.cpp`, started in
the initial state with the same handlers and decoder, go through the same states and produce
the same dispatch after the same events: nothing before the last chunk of a message, the
message `(t, p)` on its last chunk. Both end with `headerReceived = false` and an empty
buffer. -/
theorem reassemblers_agree (msgs : List FramedMessage)
    (hwf : ∀ m ∈ msgs, m.wellFormed = true) :
    feed (IndicateOnly.onWrite deserializeJson h) RxState.initial
        (msgs.map FramedMessage.chunks).flatten
      = feed (Configurable.onWrite deserializeJson h) RxState.initial
          (msgs.map FramedMessage.chunks).flatten
    ∧ (feed (IndicateOnly.onWrite deserializeJson h) RxState.initial
        (msgs.map FramedMessage.chunks).flatten).2
      = (msgs.map (fun m => List.replicate m.rest.length none
          ++ [some ⟨m.type, m.payload, dispatch deserializeJson h m.type m.payload⟩])).flatten
    ∧ (feed (IndicateOnly.onWrite deserializeJson h) RxState.initial
        (msgs.map FramedMessage.chunks).flatten).1.headerReceived = false
    ∧ (feed (IndicateOnly.onWrite deserializeJson h) RxState.initial
        (msgs.map FramedMessage.chunks).flatten).1.rxBuffer = []
    ∧ (feed (Configurable.onWrite deserializeJson h) RxState.initial
        (msgs.map FramedMessage.chunks).flatten).1.headerReceived = false
    ∧ (feed (Configurable.onWrite deserializeJson h) RxState.initial
        (msgs.map FramedMessage.chunks).flatten).1.rxBuffer = [] := by
  obtain ⟨heq, hout, hfin, hemp⟩ :=
    feed_wellFormed_list deserializeJson h msgs hwf RxState.initial rfl rfl
  refine ⟨heq, hout, hfin, hemp, ?_, ?_⟩
  · rw [← heq]; exact hfin
  · rw [← heq]; exact hemp

end Receive

/-- Witness for C19: the message `[7, 2, 0, 0xAA, 0xBB]` cut as `[7, 2, 0, 0xAA] [0xBB]`,
then the empty message `[0, 0, 0]` in one chunk. -/
theorem reassemblers_agree_witness :
    (∀ m ∈ ([⟨7, 2, 0, [0xAA, 0xBB], [7, 2, 0, 0xAA], [[0xBB]]⟩,
              ⟨0, 0, 0, [], [0, 0, 0], []⟩] : List FramedMessage), m.wellFormed = true)
    ∧ (feed (IndicateOnly.onWrite (fun _ => (none : Option Unit)) ⟨true, true⟩)
        RxState.initial [[7, 2, 0, 0xAA], [0xBB], [0, 0, 0]]).2
      = [none, some ⟨7, [0xAA, 0xBB], Dispatch.binaryHandler 7 [0xAA, 0xBB] 2⟩,
          some ⟨0, [], Dispatch.jsonError⟩]
    ∧ feed (IndicateOnly.onWrite (fun _ => (none : Option Unit)) ⟨true, true⟩)
        RxState.initial
        (([⟨7, 2, 0, [0xAA, 0xBB], [7, 2, 0, 0xAA], [[0xBB]]⟩,
            ⟨0, 0, 0, [], [0, 0, 0], []⟩] : List FramedMessage).map
          FramedMessage.chunks).flatten
      = feed (Configurable.onWrite (fun _ => (none : Option Unit)) ⟨true, true⟩)
          RxState.initial
          (([⟨7, 2, 0, [0xAA, 0xBB], [7, 2, 0, 0xAA], [[0xBB]]⟩,
              ⟨0, 0, 0, [], [0, 0, 0], []⟩] : List FramedMessage).map
            FramedMessage.chunks).flatten :=
  ⟨by decide, by decide,
    (reassemblers_agree (fun _ => (none : Option Unit)) ⟨true, true⟩
      [⟨7, 2, 0, [0xAA, 0xBB], [7, 2, 0, 0xAA], [[0xBB]]⟩, ⟨0, 0, 0, [], [0, 0, 0], []⟩]
      (by decide)).1⟩

end DataPipe
